import Mathlib

/-!
# Banker's algorithm (`banker.c`): embedding and verified properties

The C program keeps its snapshot in global arrays and runs
`readInputFile`, `calculateNeed`, `calculateAvailable`, `isSafe` in that order.

Modelling conventions.
* A C array `int a[N]` is a total map `Nat → Int` from index to content; a store
  `a[i] = v` is `Function.update a i v`.  Only indices below the bounds the C loops
  use are ever read or written.
* `int` values are mathematical integers: signed overflow is undefined in C, so the
  model describes the runs in which no intermediate value leaves the `int` range.
* In the deriver and in `isSafe`, `num_processes` and `num_resources` only occur as
  upper bounds of loops counting up from `0`, so they are natural numbers there (a
  non-positive bound runs no iteration).  The loader keeps them as the integers `sscanf`
  read; after a successful load they are at least 1 and 0 (`loaded_dimensions`).
* `printf` output does not influence any computed value and is left out, except for the
  verdict printed by `main`, which is part of its result.
-/

namespace Banker

/-- The global variables of `banker.c`. -/
@[ext]
structure State where
  num_processes : Nat
  num_resources : Nat
  total : Nat → Int
  available : Nat → Int
  allocation : Nat → Nat → Int
  max : Nat → Nat → Int
  need : Nat → Nat → Int

/-- The store `need[i][j] = v`. -/
def setNeed (s : State) (i j : Nat) (v : Int) : State :=
  { s with need := Function.update s.need i (Function.update (s.need i) j v) }

/-- The store `available[j] = v`. -/
def setAvailable (s : State) (j : Nat) (v : Int) : State :=
  { s with available := Function.update s.available j v }

/-- `calculateNeed`: for every `i < num_processes`, `j < num_resources`, in order,
`need[i][j] = max[i][j] - allocation[i][j]`. -/
def calculateNeed (s : State) : State :=
  (List.range s.num_processes).foldl
    (fun st i =>
      (List.range s.num_resources).foldl
        (fun st j => setNeed st i j (st.max i j - st.allocation i j)) st) s

/-- `calculateAvailable`: for every `j < num_resources`, `available[j] = total[j]`, then
for every `i < num_processes`, `available[j] -= allocation[i][j]`. -/
def calculateAvailable (s : State) : State :=
  (List.range s.num_resources).foldl
    (fun st j =>
      (List.range s.num_processes).foldl
        (fun st i => setAvailable st j (st.available j - st.allocation i j))
        (setAvailable st j (st.total j))) s

/-- The loop of `canAllocate` over the remaining resource indices: return `false` at the
first `j` with `need[process][j] > work[j]`, `true` when the indices are exhausted. -/
def canAllocateFrom (s : State) (process : Nat) (work : Nat → Int) : List Nat → Bool
  | [] => true
  | j :: js =>
    if s.need process j > work j then false else canAllocateFrom s process work js

/-- `canAllocate(process, work)`. -/
def canAllocate (s : State) (process : Nat) (work : Nat → Int) : Bool :=
  canAllocateFrom s process work (List.range s.num_resources)

/-- The local variables of `isSafe` together with its output buffer. -/
structure SafetyRun where
  work : Nat → Int
  finish : Nat → Bool
  count : Nat
  safeSequence : Nat → Int

/-- The inner `for` loop of `isSafe` over the remaining process indices: skip finished
processes (`continue`), stop at the first one that `canAllocate` accepts (`break`);
`none` is `found == false`. -/
def scanProcesses (s : State) (work : Nat → Int) (finish : Nat → Bool) :
    List Nat → Option Nat
  | [] => none
  | i :: is =>
    if finish i then scanProcesses s work finish is
    else if canAllocate s i work then some i
    else scanProcesses s work finish is

/-- The loop `for j < num_resources: work[j] += allocation[i][j]`. -/
def releaseResources (s : State) (i : Nat) (work : Nat → Int) : Nat → Int :=
  (List.range s.num_resources).foldl
    (fun w j => Function.update w j (w j + s.allocation i j)) work

/-- The body executed for the process `i` found by the scan: release its allocation,
`finish[i] = true`, `safeSequence[count] = i`, `count++`. -/
def executeProcess (s : State) (st : SafetyRun) (i : Nat) : SafetyRun :=
  { work := releaseResources s i st.work
    finish := Function.update st.finish i true
    count := st.count + 1
    safeSequence := Function.update st.safeSequence st.count (i : Int) }

/-- The `while (count < num_processes)` loop of `isSafe`.  The result is the returned
verdict together with the local state at the `return`. -/
def isSafeLoop (s : State) (st : SafetyRun) : Bool × SafetyRun :=
  if st.count < s.num_processes then
    match scanProcesses s st.work st.finish (List.range s.num_processes) with
    | some i => isSafeLoop s (executeProcess s st i)
    | none => (false, st)
  else (true, st)
termination_by s.num_processes - st.count
decreasing_by
  simp only [executeProcess]
  omega

/-- The state of `isSafe` when its `while` loop is entered: `work[j] = available[j]` for
`j < num_resources`, `finish[i] = false` for `i < num_processes`, `count = 0`.
`work` and `finish` are uninitialised locals; `junkWork` and `junkFinish` are their
contents before the two initialising loops. -/
def initialRun (s : State) (junkWork : Nat → Int) (junkFinish : Nat → Bool)
    (safeSequence : Nat → Int) : SafetyRun :=
  { work := (List.range s.num_resources).foldl
      (fun w j => Function.update w j (s.available j)) junkWork
    finish := (List.range s.num_processes).foldl
      (fun f i => Function.update f i false) junkFinish
    count := 0
    safeSequence := safeSequence }

/-- The run of `isSafe` with all local state exposed.  The uninitialised parts of the
locals are taken to be `0` and `false`; they are never read. -/
def isSafeRun (s : State) (safeSequence : Nat → Int) : Bool × SafetyRun :=
  isSafeLoop s (initialRun s (fun _ => 0) (fun _ => false) safeSequence)

/-- `isSafe(safeSequence)`: the returned verdict and the contents of the caller's
buffer afterwards. -/
def isSafe (s : State) (safeSequence : Nat → Int) : Bool × (Nat → Int) :=
  ((isSafeRun s safeSequence).1, (isSafeRun s safeSequence).2.safeSequence)

/-- What `main` prints last: the read-failure message, or one of the two verdicts.  The
program has no other report. -/
inductive Report where
  | readFailure
  | safeState (sequence : List Int)
  | notSafeState
deriving DecidableEq

/-- The exit status of `main` and its report. -/
structure Outcome where
  exitStatus : Int
  report : Report
deriving DecidableEq

/-- `main`.  `loaded` is the result of `readInputFile`: `none` when it returned `false`,
otherwise the globals it filled; `safeSequence` is the content of the local buffer of
`main` before the call of `isSafe`.  On a SAFE verdict the first `num_processes`
entries of the buffer are printed. -/
def main (loaded : Option State) (safeSequence : Nat → Int) : Outcome :=
  match loaded with
  | none => { exitStatus := 1, report := Report.readFailure }
  | some s =>
    let s1 := calculateNeed s
    let s2 := calculateAvailable s1
    let r := isSafe s2 safeSequence
    if r.1 then
      { exitStatus := 0
        report := Report.safeState ((List.range s2.num_processes).map r.2) }
    else { exitStatus := 0, report := Report.notSafeState }

/-! ## Notions used by the specification -/

/-- The need of process `p` is covered by `work`: `need[p][r] <= work[r]` for every
resource `r`. -/
def needCovered (s : State) (work : Nat → Int) (p : Nat) : Prop :=
  ∀ r, r < s.num_resources → s.need p r ≤ work r

instance needCoveredDecidable (s : State) (work : Nat → Int) (p : Nat) :
    Decidable (needCovered s work p) :=
  Nat.decidableBallLT _ _

/-- Replaying a completion order from `work`: every process is covered at its step, and
its allocation is added to `work` afterwards. -/
def replaySafe (s : State) : (Nat → Int) → List Nat → Prop
  | _, [] => True
  | work, p :: ps =>
    needCovered s work p ∧ replaySafe s (fun r => work r + s.allocation p r) ps

instance replaySafeDecidable (s : State) :
    (work : Nat → Int) → (l : List Nat) → Decidable (replaySafe s work l)
  | _, [] => isTrue trivial
  | work, p :: ps =>
    have := replaySafeDecidable s (fun r => work r + s.allocation p r) ps
    inferInstanceAs (Decidable (needCovered s work p ∧ _))

/-- The work vector after the processes of `l` have released their allocations:
`available[r]` plus the sum of `allocation[p][r]` over `p` in `l`. -/
def workAfter (s : State) (l : List Nat) (r : Nat) : Int :=
  s.available r + (l.map (fun p => s.allocation p r)).sum

/-- The state of the reference greedy procedure: the running `work` vector and the
sequence built so far; a process is finished when it is in the sequence. -/
structure Greedy where
  work : Nat → Int
  sequence : List Nat

/-- Process `p` is eligible in a round: not finished, and its need is covered. -/
def eligible (s : State) (g : Greedy) (p : Nat) : Prop :=
  p ∉ g.sequence ∧ needCovered s g.work p

instance eligibleDecidable (s : State) (g : Greedy) (p : Nat) :
    Decidable (eligible s g p) :=
  inferInstanceAs (Decidable (_ ∧ _))

/-- A fresh scan from index `0`: the first eligible process, if any. -/
def firstEligible (s : State) (g : Greedy) : Option Nat :=
  (List.range s.num_processes).find? (fun p => decide (eligible s g p))

/-- The reference greedy procedure for `rounds` unfinished processes: each round rescans
from index `0` and completes the first eligible process; it stops with `false` when a
scan finds none and with `true` when no process is left. -/
def greedyRounds (s : State) : Nat → Greedy → Bool × Greedy
  | 0, g => (true, g)
  | k + 1, g =>
    match firstEligible s g with
    | none => (false, g)
    | some p =>
      greedyRounds s k
        { work := fun r => g.work r + s.allocation p r
          sequence := g.sequence ++ [p] }

/-- The reference greedy procedure on a snapshot: start from `work = available` with no
process finished. -/
def greedy (s : State) : Bool × Greedy :=
  greedyRounds s s.num_processes { work := s.available, sequence := [] }

/-- A snapshot given by its dimensions and the rows of the input file, with `need` and
`available` still zero as in the freshly started program. -/
def snapshot (n m : Nat) (total : List Int) (allocation max : List (List Int)) : State :=
  { num_processes := n
    num_resources := m
    total := fun r => total.getD r 0
    available := fun _ => 0
    allocation := fun p r => (allocation.getD p []).getD r 0
    max := fun p r => (max.getD p []).getD r 0
    need := fun _ _ => 0 }

/-- Scenario 1 of the specification. -/
def scenario1 : State :=
  snapshot 5 3 [10, 5, 7]
    [[0, 1, 0], [2, 0, 0], [3, 0, 2], [2, 1, 1], [0, 0, 2]]
    [[7, 5, 3], [3, 2, 2], [9, 0, 2], [2, 2, 2], [4, 3, 3]]

/-- Scenario 2 of the specification: Scenario 1 with `total` reduced. -/
def scenario2 : State :=
  snapshot 5 3 [6, 3, 2]
    [[0, 1, 0], [2, 0, 0], [3, 0, 2], [2, 1, 1], [0, 0, 2]]
    [[7, 5, 3], [3, 2, 2], [9, 0, 2], [2, 2, 2], [4, 3, 3]]

/-- A snapshot as the safety engine sees it, given by `available`, `allocation` and
`need`; `total` and `max` are not read by the engine. -/
def engineState (n m : Nat) (available : List Int) (allocation need : List (List Int)) :
    State :=
  { num_processes := n
    num_resources := m
    total := fun _ => 0
    available := fun r => available.getD r 0
    allocation := fun p r => (allocation.getD p []).getD r 0
    max := fun _ _ => 0
    need := fun p r => (need.getD p []).getD r 0 }

/-- Two processes, one resource: `P0` can finish, `P1` never can. -/
def stallAfterOne : State :=
  engineState 2 1 [1] [[0], [0]] [[0], [5]]

/-- Scenario 1 after `calculateNeed` and `calculateAvailable`. -/
def scenario1Derived : State :=
  calculateAvailable (calculateNeed scenario1)

/-- Scenario 2 after `calculateNeed` and `calculateAvailable`. -/
def scenario2Derived : State :=
  calculateAvailable (calculateNeed scenario2)

/-- A loaded input with `max[0][0] < allocation[0][0]`: one process holding 3 units of
a resource with total 5 while declaring a maximum of 2. -/
def negativeNeedInput : State :=
  snapshot 1 1 [5] [[3]] [[2]]

/-- The round state `at k` of a sequence: the processes before position `k` are
finished and have released their allocations into `available`. -/
def roundAt (s : State) (l : List Nat) (k : Nat) : Greedy :=
  { work := workAfter s (l.take k), sequence := l.take k }

/-- Every entry of the sequence `l` is the lowest-index process eligible in its round. -/
def lowestEligibleChoices (s : State) (l : List Nat) : Prop :=
  ∀ k p, l.get? k = some p →
    p < s.num_processes ∧ eligible s (roundAt s l k) p ∧
      ∀ i, i < p → ¬ eligible s (roundAt s l k) i

/-- The local state `st` of `isSafe`, entered with buffer content `buf`, agrees with the
reference state `g`: same number of completions, same finished processes, same work
vector on the resources, the sequence in the first `count` buffer entries, and the rest
of the buffer untouched. -/
structure Tracks (s : State) (buf : Nat → Int) (st : SafetyRun) (g : Greedy) : Prop where
  count_eq : st.count = g.sequence.length
  finish_iff : ∀ i, i < s.num_processes → (st.finish i = true ↔ i ∈ g.sequence)
  work_eq : ∀ r, r < s.num_resources → st.work r = g.work r
  written : ∀ k, k < g.sequence.length → st.safeSequence k = ((g.sequence.getD k 0 : Nat) : Int)
  untouched : ∀ k, g.sequence.length ≤ k → st.safeSequence k = buf k

/-- The invariant of the reference procedure. -/
structure GreedyInv (s : State) (g : Greedy) : Prop where
  nodup : g.sequence.Nodup
  bound : ∀ p, p ∈ g.sequence → p < s.num_processes
  work_eq : ∀ r, g.work r = workAfter s g.sequence r
  replay : replaySafe s s.available g.sequence
  choices : lowestEligibleChoices s g.sequence

/-- Scenario 3 of the specification: one process, one resource. -/
def scenario3 : State :=
  snapshot 1 1 [5] [[2]] [[5]]

/-- Scenario 3 after `calculateNeed` and `calculateAvailable`. -/
def scenario3Derived : State :=
  calculateAvailable (calculateNeed scenario3)

/-- One process with need zero while the resource is over-allocated: `available = [-1]`.
It is what the deriver computes from `total = [0]`, `allocation = [[1]]`, `max = [[1]]`. -/
def overAllocatedIdle : State :=
  calculateAvailable (calculateNeed (snapshot 1 1 [0] [[1]] [[1]]))

/-- One process with need zero on two resources, `available = [0, 4]`. -/
def idleProcess : State :=
  engineState 1 2 [0, 4] [[1, 1]] [[0, 0]]

/-- The number of times the body of the `while` loop of `isSafe` is entered from the
local state `st`: the loop of `isSafeLoop` with a round counter. -/
def isSafeRounds (s : State) (st : SafetyRun) : Nat :=
  if st.count < s.num_processes then
    match scanProcesses s st.work st.finish (List.range s.num_processes) with
    | some i => isSafeRounds s (executeProcess s st i) + 1
    | none => 1
  else 0
termination_by s.num_processes - st.count
decreasing_by
  simp only [executeProcess]
  omega

/-- Everything `isSafe` can address: the global variables, and its locals with the
output buffer. -/
structure Memory where
  globals : State
  locals : SafetyRun

/-- The store `work[j] = v`. -/
def storeWork (m : Memory) (j : Nat) (v : Int) : Memory :=
  { m with locals := { m.locals with work := Function.update m.locals.work j v } }

/-- The store `finish[i] = b`. -/
def storeFinish (m : Memory) (i : Nat) (b : Bool) : Memory :=
  { m with locals := { m.locals with finish := Function.update m.locals.finish i b } }

/-- The store `safeSequence[k] = v`. -/
def storeSafeSequence (m : Memory) (k : Nat) (v : Int) : Memory :=
  { m with
    locals := { m.locals with safeSequence := Function.update m.locals.safeSequence k v } }

/-- The store `count = c`. -/
def storeCount (m : Memory) (c : Nat) : Memory :=
  { m with locals := { m.locals with count := c } }

/-- The statements `isSafe` executes for the process `i` found by the scan, as stores
into the memory: `work[j] += allocation[i][j]` for every `j`, `finish[i] = true`,
`safeSequence[count] = i`, `count++`. -/
def executeInMemory (m : Memory) (i : Nat) : Memory :=
  let m1 := (List.range m.globals.num_resources).foldl
    (fun m j => storeWork m j (m.locals.work j + m.globals.allocation i j)) m
  let m2 := storeFinish m1 i true
  let m3 := storeSafeSequence m2 m2.locals.count (i : Int)
  storeCount m3 (m3.locals.count + 1)

/-- The `while` loop of `isSafe` on the memory; every read of a global goes to the
current memory. -/
def isSafeMemoryLoop (m : Memory) : Bool × Memory :=
  if m.locals.count < m.globals.num_processes then
    match scanProcesses m.globals m.locals.work m.locals.finish
        (List.range m.globals.num_processes) with
    | some i => isSafeMemoryLoop (executeInMemory m i)
    | none => (false, m)
  else (true, m)
termination_by m.globals.num_processes - m.locals.count
decreasing_by
  have key : ∀ (l : List Nat) (m0 : Memory),
      (l.foldl (fun m j => storeWork m j (m.locals.work j + m.globals.allocation i j))
          m0).globals = m0.globals ∧
      (l.foldl (fun m j => storeWork m j (m.locals.work j + m.globals.allocation i j))
          m0).locals.count = m0.locals.count := by
    intro l
    induction l with
    | nil => intro m0; exact ⟨rfl, rfl⟩
    | cons j js ih =>
      intro m0
      rw [List.foldl_cons]
      exact ih _
  have h1 := (key (List.range m.globals.num_resources) m).1
  have h2 := (key (List.range m.globals.num_resources) m).2
  simp only [executeInMemory, storeCount, storeSafeSequence, storeFinish, h1, h2]
  omega

/-- The body of `isSafe` on the memory: the two initialising loops, `count = 0`, then the
`while` loop. -/
def isSafeMemory (m : Memory) : Bool × Memory :=
  let m1 := (List.range m.globals.num_resources).foldl
    (fun m j => storeWork m j (m.globals.available j)) m
  let m2 := (List.range m.globals.num_processes).foldl
    (fun m i => storeFinish m i false) m1
  isSafeMemoryLoop (storeCount m2 0)

/-- The memory at the call `isSafe(safeSequence)` with globals `s`: uninitialised locals
and the caller's buffer. -/
def entryMemory (s : State) (safeSequence : Nat → Int) : Memory :=
  { globals := s
    locals := { work := fun _ => 0, finish := fun _ => false, count := 0,
                safeSequence := safeSequence } }

/-- Two processes, one resource, `available = [1]`, `need = [[0],[1]]`, and a negative
allocation entry `allocation = [[-1],[0]]`. -/
def negativeAllocationState : State :=
  engineState 2 1 [1] [[-1], [0]] [[0], [1]]

/-- The sum of `allocation[p][r]` over the processes `p < num_processes` that are marked
finished. -/
def finishedSum (s : State) (finish : Nat → Bool) (r : Nat) : Int :=
  (((List.range s.num_processes).filter (fun p => finish p)).map
    (fun p => s.allocation p r)).sum

/-- Work-vector conservation for a local state of `isSafe`: `work[r]` is `available[r]`
plus the allocations of the finished processes, for every resource `r`. -/
def workConserved (s : State) (st : SafetyRun) : Prop :=
  ∀ r, r < s.num_resources → st.work r = s.available r + finishedSum s st.finish r

/-! ## The input loader

A file is the list of its characters; `none` stands for a file that cannot be opened.
The model describes the runs of `readInputFile` that stay inside the arrays of the
program: dimensions up to `MAX_PROCESSES` and `MAX_RESOURCES`, process labels shorter
than ten characters, numbers in the `int` range. -/

/-- `MAX_LINE`. -/
def MAX_LINE : Nat := 256

/-- The buffers filled by the successive calls `fgets(line, MAX_LINE, file)` on the
remaining content: each call takes the characters up to and including the next newline,
but at most `MAX_LINE - 1` of them.  `cur` holds the characters taken by the current call,
latest first. -/
def fgetsLines : List Char → List Char → List (List Char)
  | [], cur => if cur.isEmpty then [] else [cur.reverse]
  | c :: cs, cur =>
    if c = '\n' ∨ cur.length + 1 = MAX_LINE - 1 then (c :: cur).reverse :: fgetsLines cs []
    else fgetsLines cs (c :: cur)

/-- The C string in a buffer: the characters before the first NUL. -/
def cString (buffer : List Char) : List Char :=
  buffer.takeWhile (fun c => c != '\x00')

/-- `isValidLine(line)`: false when `line[0]` is a newline, the terminating NUL or `#`. -/
def isValidLine (line : List Char) : Bool :=
  match line with
  | [] => false
  | c :: _ => if c = '\n' then false else if c = '#' then false else true

/-- `isspace` of the C locale. -/
def isspace (c : Char) : Bool :=
  c = ' ' || c = '\t' || c = '\n' || c = '\x0b' || c = '\x0c' || c = '\r'

/-- The value of the leading decimal digits, continuing from `acc`, and the rest. -/
def readDigits : List Char → Nat → Nat × List Char
  | [], acc => (acc, [])
  | c :: cs, acc =>
    if c.isDigit then readDigits cs (10 * acc + (c.toNat - 48)) else (acc, c :: cs)

/-- An optional sign: whether it is `-`, and the rest. -/
def readSign (input : List Char) : Bool × List Char :=
  match input with
  | [] => (false, [])
  | c :: cs => if c = '-' then (true, cs) else if c = '+' then (false, cs) else (false, c :: cs)

/-- A decimal conversion as `%d` of `sscanf` and `atoi` perform it: skip white space, read
an optional sign and at least one digit; `none` when no digit follows. -/
def scanInt (input : List Char) : Option (Int × List Char) :=
  let signed := readSign (input.dropWhile isspace)
  match signed.2 with
  | [] => none
  | c :: cs =>
    if c.isDigit then
      let d := readDigits (c :: cs) 0
      some (if signed.1 then -(d.1 : Int) else (d.1 : Int), d.2)
    else none

/-- `atoi(token)`: the converted number, `0` when there is none. -/
def atoi (token : List Char) : Int :=
  match scanInt token with
  | some r => r.1
  | none => 0

/-- `sscanf(line, "%d %d", &num_processes, &num_resources)`: the values stored by the two
conversions; the call returns 2 exactly when both are stored. -/
def sscanfHeader (line : List Char) : Option Int × Option Int :=
  match scanInt line with
  | none => (none, none)
  | some r =>
    match scanInt r.2 with
    | none => (some r.1, none)
    | some r2 => (some r.1, some r2.1)

/-- The delimiters `" \t\n"` given to `strtok`. -/
def isDelimiter (c : Char) : Bool :=
  c = ' ' || c = '\t' || c = '\n'

/-- All tokens that successive calls of `strtok(line, " \t\n")` return: the maximal runs
of characters that are not delimiters.  `cur` holds the current token, latest character
first. -/
def strtokAll : List Char → List Char → List (List Char)
  | [], cur => if cur.isEmpty then [] else [cur.reverse]
  | c :: cs, cur =>
    if isDelimiter c then
      if cur.isEmpty then strtokAll cs [] else cur.reverse :: strtokAll cs []
    else strtokAll cs (c :: cur)

/-- The variables of `readInputFile`: the locals `section` and `process_count`, and the
globals it fills.  The two dimensions are the `int` values read by `sscanf`. -/
structure Loader where
  sectionNo : Nat
  process_count : Nat
  num_processes : Int
  num_resources : Int
  total : Nat → Int
  allocation : Nat → Nat → Int
  max : Nat → Nat → Int

/-- The loop `while (token != NULL && i < num_resources) { row[i] = atoi(token); i++; }`
over the remaining tokens: the final `i` and the row. -/
def readValues (num_resources : Int) :
    List (List Char) → Nat → (Nat → Int) → Nat × (Nat → Int)
  | [], i, row => (i, row)
  | t :: ts, i, row =>
    if (i : Int) < num_resources then
      readValues num_resources ts (i + 1) (Function.update row i (atoi t))
    else (i, row)

/-- The body of the reading loop for a line that is not skipped, by section. -/
def processLine (ld : Loader) (line : List Char) : Loader :=
  if ld.sectionNo = 0 then
    match sscanfHeader line with
    | (some a, some b) => { ld with num_processes := a, num_resources := b, sectionNo := 1 }
    | (some a, none) => { ld with num_processes := a }
    | _ => ld
  else if ld.sectionNo = 1 then
    let r := readValues ld.num_resources (strtokAll line []) 0 ld.total
    let ld1 := { ld with total := r.2 }
    if (r.1 : Int) = ld.num_resources then { ld1 with sectionNo := 2, process_count := 0 }
    else ld1
  else if ld.sectionNo = 2 then
    match strtokAll line [] with
    | [] => ld
    | _ :: values =>
      let r := readValues ld.num_resources values 0 (ld.allocation ld.process_count)
      let ld1 := { ld with allocation := Function.update ld.allocation ld.process_count r.2 }
      if (r.1 : Int) = ld.num_resources then
        if ((ld.process_count + 1 : Nat) : Int) = ld.num_processes then
          { ld1 with sectionNo := 3, process_count := 0 }
        else { ld1 with process_count := ld.process_count + 1 }
      else ld1
  else if ld.sectionNo = 3 then
    match strtokAll line [] with
    | [] => ld
    | _ :: values =>
      let r := readValues ld.num_resources values 0 (ld.max ld.process_count)
      let ld1 := { ld with max := Function.update ld.max ld.process_count r.2 }
      if (r.1 : Int) = ld.num_resources then
        if ((ld.process_count + 1 : Nat) : Int) = ld.num_processes then
          { ld1 with sectionNo := 4, process_count := ld.process_count + 1 }
        else { ld1 with process_count := ld.process_count + 1 }
      else ld1
  else ld

/-- One iteration of the reading loop on the buffer `fgets` filled: `continue` when
`isValidLine` rejects the line. -/
def readStep (ld : Loader) (buffer : List Char) : Loader :=
  if isValidLine (cString buffer) then processLine ld (cString buffer) else ld

/-- The variables when `readInputFile` starts: `section = 0`, `process_count = 0`, and
the zero-initialised globals. -/
def startLoader : Loader :=
  { sectionNo := 0, process_count := 0, num_processes := 0, num_resources := 0
    total := fun _ => 0, allocation := fun _ _ => 0, max := fun _ _ => 0 }

/-- The globals after a successful load; `available` and `need` are still zero. -/
def loadedState (ld : Loader) : State :=
  { num_processes := ld.num_processes.toNat
    num_resources := ld.num_resources.toNat
    total := ld.total
    available := fun _ => 0
    allocation := ld.allocation
    max := ld.max
    need := fun _ _ => 0 }

/-- `readInputFile`: `none` when it returns false (the file cannot be opened, or
`section != 4` after the last line), otherwise the globals it filled. -/
def readInputFile (file : Option (List Char)) : Option State :=
  match file with
  | none => none
  | some content =>
    let ld := (fgetsLines content []).foldl readStep startLoader
    if ld.sectionNo ≠ 4 then none else some (loadedState ld)

/-- The program on an input file: `main` with the result of `readInputFile`. -/
def runProgram (file : Option (List Char)) (safeSequence : Nat → Int) : Outcome :=
  main (readInputFile file) safeSequence

/-- The file made of the given lines, each ended by a newline. -/
def fileOfLines : List (List Char) → List Char
  | [] => []
  | l :: ls => l ++ '\n' :: fileOfLines ls

/-- The lines the reading loop does not skip, as C strings. -/
def liveLines (content : List Char) : List (List Char) :=
  ((fgetsLines content []).map cString).filter isValidLine

/-- The number of values a row line carries after its process label. -/
def valueCount (line : List Char) : Nat :=
  (strtokAll line []).length - 1

/-- A row line the loader counts: a process label followed by at least `num_resources`
values. -/
def completeRow (num_resources : Int) (line : List Char) : Prop :=
  strtokAll line [] ≠ [] ∧ 0 ≤ num_resources ∧ num_resources ≤ (valueCount line : Int)

instance completeRowDecidable (num_resources : Int) (line : List Char) :
    Decidable (completeRow num_resources line) :=
  inferInstanceAs (Decidable (_ ∧ _ ∧ _))

/-- How far the loader has got, counted in rows: `process_count` in the allocation
section, `num_processes + process_count` in the maximum section, `2 * num_processes` at
the end; 0 before the matrices. -/
def rowsRead (ld : Loader) : Int :=
  if ld.sectionNo = 2 then ld.process_count
  else if ld.sectionNo = 3 then ld.num_processes + ld.process_count
  else if ld.sectionNo = 4 then 2 * ld.num_processes
  else 0

/-- A well-formed input: one process, one resource. -/
def smallInput : List (List Char) :=
  ["1 1".toList, "5".toList, "P0 2".toList, "P0 5".toList]

/-- An input whose maximum section has one row where two are announced. -/
def missingMaxRowInput : List (List Char) :=
  ["2 1".toList, "5".toList, "P0 1".toList, "P1 1".toList, "P0 2".toList]

/-- The input `smallInput` with a surplus value in its allocation row. -/
def surplusValueInput : List (List Char) :=
  ["1 1".toList, "5".toList, "P0 2 9".toList, "P0 5".toList]

/-- The input `smallInput` with a row carrying no value before its allocation row. -/
def shortRowInput : List (List Char) :=
  ["1 1".toList, "5".toList, "P0".toList, "P0 2".toList, "P0 5".toList]

/-- An input of the right number of rows, one of them with too few values. -/
def shortRowNoSpareInput : List (List Char) :=
  ["1 2".toList, "5 5".toList, "P0 2".toList, "P0 5 5".toList]

/-- A comment line of 258 characters: `#`, 254 times `x`, then `2 1`. -/
def longComment : List Char :=
  '#' :: (List.replicate 254 'x' ++ "2 1".toList)

/-- An input that loads into the state of `negativeAllocationState`. -/
def negativeAllocationInput : List (List Char) :=
  ["2 1".toList, "0".toList, "P0 -1".toList, "P1 0".toList, "P0 -1".toList, "P1 1".toList]

/-- The dimensions are those of a loadable snapshot once the loader has accepted them:
`num_resources` is not negative from the allocation section on, and `num_processes` is
positive from the maximum section on. -/
def dimensionsAccepted (ld : Loader) : Prop :=
  (2 ≤ ld.sectionNo → 0 ≤ ld.num_resources) ∧ (3 ≤ ld.sectionNo → 1 ≤ ld.num_processes)

/-- The variables of `readInputFile` when its reading loop has consumed `content`. -/
def loaderAfter (content : List Char) : Loader :=
  (fgetsLines content []).foldl readStep startLoader

/-- A file line that one call of `fgets` reads together with its newline: no newline
inside and at most `MAX_LINE - 2` characters. -/
def lineFits (l : List Char) : Prop :=
  '\n' ∉ l ∧ l.length + 2 ≤ MAX_LINE

instance lineFitsDecidable (l : List Char) : Decidable (lineFits l) :=
  inferInstanceAs (Decidable (_ ∧ _))

/-- What the reading loop sees of a file line that fits the buffer: the line with its
newline, as a C string. -/
def lineAsRead (l : List Char) : List Char :=
  cString (l ++ ['\n'])

/-- A comment line of 259 characters: `#`, 254 times `x`, then `P0 5`. -/
def longCommentRow : List Char :=
  '#' :: (List.replicate 254 'x' ++ "P0 5".toList)

/-- An input with a header for one process and one resource, a total line, one
allocation row, no maximum row, and the comment line `longCommentRow`. -/
def hiddenMaxRowInput : List (List Char) :=
  ["1 1".toList, "5".toList, "P0 2".toList, longCommentRow]

/-- An input announcing zero resources that has no total line. -/
def zeroResourceInput : List (List Char) :=
  ["1 0".toList, "P0".toList, "P0".toList]

/-! ## Basic facts about the loops -/

theorem canAllocateFrom_iff (s : State) (p : Nat) (w : Nat → Int) (l : List Nat) :
    canAllocateFrom s p w l = true ↔ ∀ j ∈ l, s.need p j ≤ w j := by
  induction l with
  | nil => simp [canAllocateFrom]
  | cons j js ih =>
    simp only [canAllocateFrom, List.mem_cons, forall_eq_or_imp]
    by_cases h : s.need p j > w j
    · simp only [h, if_true]
      constructor
      · intro hf; cases hf
      · intro hc; omega
    · simp only [h, if_false, ih]
      constructor
      · intro hc; exact ⟨by omega, hc⟩
      · intro hc; exact hc.2

theorem canAllocate_iff (s : State) (p : Nat) (w : Nat → Int) :
    canAllocate s p w = true ↔ needCovered s w p := by
  simp [canAllocate, canAllocateFrom_iff, needCovered]

theorem find_range_none (q : Nat → Bool) (n : Nat) :
    (List.range n).find? q = none ↔ ∀ j, j < n → q j = false := by
  simp [List.find?_eq_none]

theorem find_range_some (q : Nat → Bool) (n i : Nat) :
    (List.range n).find? q = some i ↔ i < n ∧ q i = true ∧ ∀ j, j < i → q j = false := by
  induction n generalizing i with
  | zero => simp
  | succ n ih =>
    rw [List.range_succ, List.find?_append]
    cases hf : (List.range n).find? q with
    | some k =>
      obtain ⟨hk1, hk2, hk3⟩ := (ih k).1 hf
      simp only [Option.or, Option.some.injEq]
      constructor
      · rintro rfl
        exact ⟨by omega, hk2, hk3⟩
      · rintro ⟨_, hi2, hi3⟩
        rcases Nat.lt_trichotomy k i with h | h | h
        · have := hi3 k h
          simp [hk2] at this
        · exact h
        · have := hk3 i h
          simp [hi2] at this
    | none =>
      have hn := (find_range_none q n).1 hf
      simp only [Option.or, List.find?_cons, List.find?_nil]
      by_cases hq : q n = true
      · simp only [hq, Option.some.injEq]
        constructor
        · rintro rfl
          exact ⟨by omega, hq, hn⟩
        · rintro ⟨hi1, hi2, hi3⟩
          rcases Nat.lt_trichotomy n i with h | h | h
          · omega
          · exact h
          · have := hn i h
            simp [hi2] at this
      · have hq2 : q n = false := by simpa using hq
        simp only [hq2]
        constructor
        · intro h; cases h
        · rintro ⟨hi1, hi2, hi3⟩
          have hlt : i < n := by
            rcases Nat.lt_or_ge i n with h | h
            · exact h
            · have : i = n := by omega
              subst this
              simp [hq2] at hi2
          have := hn i hlt
          simp [hi2] at this

theorem scanProcesses_eq_find (s : State) (w : Nat → Int) (f : Nat → Bool) (l : List Nat) :
    scanProcesses s w f l = l.find? (fun i => !f i && canAllocate s i w) := by
  induction l with
  | nil => rfl
  | cons i is ih =>
    simp only [scanProcesses, List.find?_cons]
    cases hf : f i <;> cases hc : canAllocate s i w <;> simp [ih]

theorem foldl_update_range {α : Type} (g : Nat → α → α) (w : Nat → α) (n r : Nat) :
    (List.range n).foldl (fun w j => Function.update w j (g j (w j))) w r =
      if r < n then g r (w r) else w r := by
  induction n with
  | zero => simp
  | succ n ih =>
    rw [List.range_succ, List.foldl_append]
    simp only [List.foldl_cons, List.foldl_nil]
    by_cases h : r = n
    · subst h
      have hself : (List.range r).foldl (fun w j => Function.update w j (g j (w j))) w r
          = w r := by
        rw [ih]; simp
      rw [hself]
      simp
    · rw [Function.update_noteq h, ih]
      by_cases h2 : r < n
      · simp [h2, Nat.lt_succ_of_lt h2]
      · have : ¬ r < n + 1 := by omega
        simp [h2, this]

theorem releaseResources_apply (s : State) (i : Nat) (w : Nat → Int) (r : Nat) :
    releaseResources s i w r =
      if r < s.num_resources then w r + s.allocation i r else w r :=
  foldl_update_range (fun j v => v + s.allocation i j) w s.num_resources r

theorem initialRun_work (s : State) (jw : Nat → Int) (jf : Nat → Bool) (buf : Nat → Int)
    (r : Nat) (hr : r < s.num_resources) :
    (initialRun s jw jf buf).work r = s.available r := by
  have := foldl_update_range (fun j _ => s.available j) jw s.num_resources r
  simp only [initialRun]
  rw [this]; simp [hr]

theorem initialRun_finish (s : State) (jw : Nat → Int) (jf : Nat → Bool) (buf : Nat → Int)
    (i : Nat) (hi : i < s.num_processes) :
    (initialRun s jw jf buf).finish i = false := by
  have := foldl_update_range (fun _ _ => false) jf s.num_processes i
  simp only [initialRun]
  rw [this]; simp [hi]

/-! ## The loop of `isSafe` follows the reference procedure -/

theorem needCovered_congr (s : State) (w w2 : Nat → Int) (p : Nat)
    (h : ∀ r, r < s.num_resources → w r = w2 r) :
    needCovered s w p ↔ needCovered s w2 p := by
  unfold needCovered
  constructor
  · intro hc r hr; rw [← h r hr]; exact hc r hr
  · intro hc r hr; rw [h r hr]; exact hc r hr

theorem scan_eq_firstEligible (s : State) (buf : Nat → Int) (st : SafetyRun) (g : Greedy)
    (ht : Tracks s buf st g) :
    scanProcesses s st.work st.finish (List.range s.num_processes) = firstEligible s g := by
  have key : ∀ i, i < s.num_processes →
      (!st.finish i && canAllocate s i st.work) = decide (eligible s g i) := by
    intro i hi
    have h1 := ht.finish_iff i hi
    have h2 := canAllocate_iff s i st.work
    have h3 := needCovered_congr s st.work g.work i ht.work_eq
    rw [Bool.eq_iff_iff]
    simp only [Bool.and_eq_true, Bool.not_eq_true', decide_eq_true_eq, eligible]
    rw [h2, h3, ← h1]
    simp
  rw [scanProcesses_eq_find]
  unfold firstEligible
  apply Option.ext
  intro i
  simp only [Option.mem_def, find_range_some]
  constructor
  · rintro ⟨h1, h2, h3⟩
    refine ⟨h1, ?_, ?_⟩
    · rw [← key i h1]; exact h2
    · intro j hj; rw [← key j (by omega)]; exact h3 j hj
  · rintro ⟨h1, h2, h3⟩
    refine ⟨h1, ?_, ?_⟩
    · rw [key i h1]; exact h2
    · intro j hj; rw [key j (by omega)]; exact h3 j hj

theorem firstEligible_some (s : State) (g : Greedy) (p : Nat) :
    firstEligible s g = some p ↔
      p < s.num_processes ∧ eligible s g p ∧ ∀ i, i < p → ¬ eligible s g i := by
  unfold firstEligible
  rw [find_range_some]
  simp

theorem firstEligible_none (s : State) (g : Greedy) :
    firstEligible s g = none ↔ ∀ i, i < s.num_processes → ¬ eligible s g i := by
  unfold firstEligible
  rw [find_range_none]
  simp

/-- The reference state after completing `p`. -/
theorem tracks_step (s : State) (buf : Nat → Int) (st : SafetyRun) (g : Greedy) (p : Nat)
    (ht : Tracks s buf st g) (hp : p < s.num_processes) :
    Tracks s buf (executeProcess s st p)
      { work := fun r => g.work r + s.allocation p r, sequence := g.sequence ++ [p] } := by
  constructor
  · simp [executeProcess, ht.count_eq]
  · intro i hi
    simp only [executeProcess, List.mem_append, List.mem_singleton]
    by_cases h : i = p
    · subst h; simp
    · rw [Function.update_noteq h, ht.finish_iff i hi]
      simp [h]
  · intro r hr
    simp only [executeProcess]
    rw [releaseResources_apply, if_pos hr, ht.work_eq r hr]
  · intro k hk
    simp only [List.length_append, List.length_singleton] at hk
    simp only [executeProcess]
    by_cases h : k = st.count
    · subst h
      rw [Function.update_same, ht.count_eq]
      simp [List.getD_eq_getElem?_getD]
    · have hk2 : k < g.sequence.length := by have := ht.count_eq; omega
      rw [Function.update_noteq h, ht.written k hk2]
      simp [List.getD_eq_getElem?_getD, List.getElem?_append_left, hk2]
  · intro k hk
    simp only [List.length_append, List.length_singleton] at hk
    simp only [executeProcess]
    have h : k ≠ st.count := by have := ht.count_eq; omega
    rw [Function.update_noteq h]
    exact ht.untouched k (by omega)

theorem isSafeLoop_greedyRounds (s : State) (buf : Nat → Int) (k : Nat) :
    ∀ (st : SafetyRun) (g : Greedy), Tracks s buf st g → st.count + k = s.num_processes →
      (isSafeLoop s st).1 = (greedyRounds s k g).1 ∧
        Tracks s buf (isSafeLoop s st).2 (greedyRounds s k g).2 := by
  induction k with
  | zero =>
    intro st g ht hk
    rw [isSafeLoop]
    have : ¬ st.count < s.num_processes := by omega
    simp only [this, if_false, greedyRounds]
    exact ⟨trivial, ht⟩
  | succ k ih =>
    intro st g ht hk
    rw [isSafeLoop]
    have : st.count < s.num_processes := by omega
    simp only [this, if_true, greedyRounds]
    rw [scan_eq_firstEligible s buf st g ht]
    cases hf : firstEligible s g with
    | none => exact ⟨rfl, ht⟩
    | some p =>
      have hp := ((firstEligible_some s g p).1 hf).1
      exact ih _ _ (tracks_step s buf st g p ht hp) (by simp only [executeProcess]; omega)

theorem tracks_initial (s : State) (buf : Nat → Int) :
    Tracks s buf (initialRun s (fun _ => 0) (fun _ => false) buf)
      { work := s.available, sequence := [] } := by
  constructor
  · rfl
  · intro i hi
    rw [initialRun_finish s _ _ buf i hi]
    simp
  · intro r hr
    exact initialRun_work s _ _ buf r hr
  · intro k hk
    simp at hk
  · intro k _
    rfl

theorem isSafeRun_greedy (s : State) (buf : Nat → Int) :
    (isSafeRun s buf).1 = (greedy s).1 ∧
      Tracks s buf (isSafeRun s buf).2 (greedy s).2 :=
  isSafeLoop_greedyRounds s buf s.num_processes _ _ (tracks_initial s buf)
    (by simp [initialRun])

/-! ## Invariants of the reference procedure -/

theorem workAfter_append (s : State) (l : List Nat) (p r : Nat) :
    workAfter s (l ++ [p]) r = workAfter s l r + s.allocation p r := by
  simp [workAfter, add_assoc]

theorem replaySafe_append (s : State) (l : List Nat) (p : Nat) :
    ∀ w : Nat → Int, replaySafe s w (l ++ [p]) ↔
      replaySafe s w l ∧
        needCovered s (fun r => w r + (l.map (fun q => s.allocation q r)).sum) p := by
  induction l with
  | nil =>
    intro w
    simp [replaySafe]
  | cons q l ih =>
    intro w
    have e := ih (fun r => w r + s.allocation q r)
    show (needCovered s w q ∧ replaySafe s (fun r => w r + s.allocation q r) (l ++ [p])) ↔ _
    rw [e]
    simp only [replaySafe, List.map_cons, List.sum_cons]
    have : (fun r => w r + s.allocation q r + (l.map (fun q => s.allocation q r)).sum) =
        (fun r => w r + (s.allocation q r + (l.map (fun q => s.allocation q r)).sum)) := by
      funext r; ring
    rw [this, and_assoc]

theorem roundAt_append (s : State) (l : List Nat) (p k : Nat) (hk : k ≤ l.length) :
    roundAt s (l ++ [p]) k = roundAt s l k := by
  simp [roundAt, List.take_append_of_le_length hk]

theorem roundAt_length (s : State) (g : Greedy) (h : ∀ r, g.work r = workAfter s g.sequence r) :
    roundAt s g.sequence g.sequence.length = g := by
  have : g.work = workAfter s g.sequence := funext h
  cases g
  simp only [roundAt, List.take_length] at *
  rw [this]

theorem greedyInv_step (s : State) (g : Greedy) (p : Nat) (hg : GreedyInv s g)
    (hf : firstEligible s g = some p) :
    GreedyInv s { work := fun r => g.work r + s.allocation p r,
                  sequence := g.sequence ++ [p] } := by
  obtain ⟨hp, he, hlow⟩ := (firstEligible_some s g p).1 hf
  constructor
  · simp only
    rw [List.nodup_append]
    refine ⟨hg.nodup, List.nodup_singleton p, ?_⟩
    intro a ha hb
    rw [List.mem_singleton] at hb
    subst hb
    exact he.1 ha
  · intro q hq
    simp only [List.mem_append, List.mem_singleton] at hq
    rcases hq with hq | hq
    · exact hg.bound q hq
    · rw [hq]; exact hp
  · intro r
    simp only
    rw [workAfter_append, hg.work_eq r]
  · simp only
    rw [replaySafe_append]
    refine ⟨hg.replay, ?_⟩
    have := he.2
    rw [needCovered_congr s g.work (workAfter s g.sequence) p (fun r _ => hg.work_eq r)] at this
    exact this
  · intro k q hq
    simp only at hq ⊢
    rcases Nat.lt_trichotomy k g.sequence.length with h | h | h
    · rw [List.get?_eq_getElem?, List.getElem?_append_left h, ← List.get?_eq_getElem?] at hq
      rw [roundAt_append s _ p k (by omega)]
      exact hg.choices k q hq
    · subst h
      rw [List.get?_eq_getElem?, List.getElem?_append_right (le_refl _)] at hq
      simp at hq
      subst hq
      rw [roundAt_append s _ p _ (le_refl _), roundAt_length s g hg.work_eq]
      exact ⟨hp, he, hlow⟩
    · rw [List.get?_eq_getElem?, List.getElem?_eq_none (by simp; omega)] at hq
      cases hq

theorem greedyInv_initial (s : State) :
    GreedyInv s { work := s.available, sequence := [] } := by
  constructor
  · exact List.nodup_nil
  · intro p hp; cases hp
  · intro r; simp [workAfter]
  · trivial
  · intro k p hp; simp at hp

theorem greedyRounds_spec (s : State) (k : Nat) :
    ∀ g : Greedy, GreedyInv s g →
      GreedyInv s (greedyRounds s k g).2 ∧
      ((greedyRounds s k g).1 = true →
        (greedyRounds s k g).2.sequence.length = g.sequence.length + k) ∧
      ((greedyRounds s k g).1 = false →
        (greedyRounds s k g).2.sequence.length < g.sequence.length + k ∧
          firstEligible s (greedyRounds s k g).2 = none) := by
  induction k with
  | zero =>
    intro g hg
    simp [greedyRounds, hg]
  | succ k ih =>
    intro g hg
    simp only [greedyRounds]
    cases hf : firstEligible s g with
    | none =>
      dsimp only
      refine ⟨hg, ?_, ?_⟩
      · intro h; cases h
      · intro _; exact ⟨by omega, hf⟩
    | some p =>
      dsimp only
      obtain ⟨h1, h2, h3⟩ := ih _ (greedyInv_step s g p hg hf)
      simp only [List.length_append, List.length_singleton] at h2 h3
      refine ⟨h1, ?_, ?_⟩
      · intro h; rw [h2 h]; omega
      · intro h; exact ⟨by have := (h3 h).1; omega, (h3 h).2⟩

theorem greedy_spec (s : State) :
    GreedyInv s (greedy s).2 ∧
      ((greedy s).1 = true → (greedy s).2.sequence.length = s.num_processes) ∧
      ((greedy s).1 = false →
        (greedy s).2.sequence.length < s.num_processes ∧
          firstEligible s (greedy s).2 = none) := by
  have := greedyRounds_spec s s.num_processes _ (greedyInv_initial s)
  simpa [greedy] using this

/-! ## The state deriver -/

theorem needRow_eq (s : State) (i m : Nat) :
    (List.range m).foldl (fun st j => setNeed st i j (st.max i j - st.allocation i j)) s =
      { s with need := fun a b =>
          if a = i ∧ b < m then s.max i b - s.allocation i b else s.need a b } := by
  induction m with
  | zero => ext <;> simp
  | succ m ih =>
    rw [List.range_succ, List.foldl_append, ih]
    simp only [List.foldl_cons, List.foldl_nil, setNeed]
    ext a b <;> try rfl
    simp only
    by_cases ha : a = i
    · subst ha
      rw [Function.update_same]
      by_cases hb : b = m
      · subst hb; simp
      · rw [Function.update_noteq hb]
        have : (b < m + 1) ↔ b < m := by omega
        simp [this]
    · rw [Function.update_noteq ha]
      simp [ha]

theorem calculateNeed_eq (s : State) :
    calculateNeed s =
      { s with need := fun a b =>
          if a < s.num_processes ∧ b < s.num_resources then s.max a b - s.allocation a b
          else s.need a b } := by
  have key : ∀ n, (List.range n).foldl
      (fun st i =>
        (List.range s.num_resources).foldl
          (fun st j => setNeed st i j (st.max i j - st.allocation i j)) st) s =
      { s with need := fun a b =>
          if a < n ∧ b < s.num_resources then s.max a b - s.allocation a b
          else s.need a b } := by
    intro n
    induction n with
    | zero => ext <;> simp
    | succ n ih =>
      rw [List.range_succ, List.foldl_append, ih]
      simp only [List.foldl_cons, List.foldl_nil]
      rw [needRow_eq]
      ext a b <;> try rfl
      simp only
      by_cases ha : a = n
      · subst ha; simp
      · have : (a < n + 1) ↔ a < n := by omega
        simp [ha, this]
  exact key s.num_processes

theorem availableColumn_eq (s : State) (j n : Nat) :
    (List.range n).foldl
        (fun st i => setAvailable st j (st.available j - st.allocation i j))
        (setAvailable s j (s.total j)) =
      { s with
        available :=
          Function.update s.available j
            (s.total j - ((List.range n).map (fun p => s.allocation p j)).sum) } := by
  induction n with
  | zero => simp [setAvailable]
  | succ n ih =>
    rw [List.range_succ, List.foldl_append, ih]
    simp only [List.foldl_cons, List.foldl_nil, setAvailable, Function.update_same,
      Function.update_idem, List.map_append, List.map_cons, List.map_nil, List.sum_append,
      List.sum_cons, List.sum_nil, add_zero]
    rw [sub_sub]

theorem calculateAvailable_eq (s : State) :
    calculateAvailable s =
      { s with available := fun r =>
          if r < s.num_resources then
            s.total r - ((List.range s.num_processes).map (fun p => s.allocation p r)).sum
          else s.available r } := by
  have key : ∀ m, (List.range m).foldl
      (fun st j =>
        (List.range s.num_processes).foldl
          (fun st i => setAvailable st j (st.available j - st.allocation i j))
          (setAvailable st j (st.total j))) s =
      { s with available := fun r =>
          if r < m then
            s.total r - ((List.range s.num_processes).map (fun p => s.allocation p r)).sum
          else s.available r } := by
    intro m
    induction m with
    | zero => ext <;> simp
    | succ m ih =>
      rw [List.range_succ, List.foldl_append, ih]
      simp only [List.foldl_cons, List.foldl_nil]
      rw [availableColumn_eq]
      ext r <;> try rfl
      simp only
      by_cases hr : r = m
      · subst hr; simp
      · rw [Function.update_noteq hr]
        have : (r < m + 1) ↔ r < m := by omega
        simp [this]
  exact key s.num_resources

/-- C3: after `calculateNeed`, `need[p][r] = max[p][r] - allocation[p][r]` for every
process `p < num_processes` and resource `r < num_resources`; the difference is stored as
it is, also when it is negative. -/
theorem calculateNeed_spec (s : State) (p r : Nat) (hp : p < s.num_processes)
    (hr : r < s.num_resources) :
    (calculateNeed s).need p r = s.max p r - s.allocation p r := by
  rw [calculateNeed_eq]
  simp [hp, hr]

theorem calculateNeed_spec_witness :
    (calculateNeed (snapshot 1 1 [5] [[3]] [[2]])).need 0 0 = -1 :=
  calculateNeed_spec (snapshot 1 1 [5] [[3]] [[2]]) 0 0 (by decide) (by decide)

/-- C4: after `calculateAvailable`, `available[r]` is `total[r]` minus the sum of
`allocation[p][r]` over all processes `p < num_processes`, for every resource
`r < num_resources`. -/
theorem calculateAvailable_spec (s : State) (r : Nat) (hr : r < s.num_resources) :
    (calculateAvailable s).available r =
      s.total r - ((List.range s.num_processes).map (fun p => s.allocation p r)).sum := by
  rw [calculateAvailable_eq]
  simp [hr]

theorem calculateAvailable_spec_witness :
    (calculateAvailable scenario1).available 0 = 10 - (0 + (2 + (3 + (2 + (0 + 0))))) :=
  calculateAvailable_spec scenario1 0 (by decide)

/-! ## Consequences for `isSafe` -/

theorem isSafe_verdict (s : State) (buf : Nat → Int) :
    (isSafe s buf).1 = (greedy s).1 :=
  (isSafeRun_greedy s buf).1

theorem isSafe_written (s : State) (buf : Nat → Int) :
    (List.range (greedy s).2.sequence.length).map (isSafe s buf).2 =
      List.map (fun p : Nat => (p : Int)) (greedy s).2.sequence := by
  have ht := (isSafeRun_greedy s buf).2
  apply List.ext_getElem
  · simp
  · intro k h1 h2
    simp only [List.length_map, List.length_range] at h1
    simp only [List.getElem_map, List.getElem_range]
    have := ht.written k h1
    simp only [isSafe]
    rw [this, List.getD_eq_getElem _ _ h1]

theorem isSafe_untouched (s : State) (buf : Nat → Int) (k : Nat)
    (hk : (greedy s).2.sequence.length ≤ k) :
    (isSafe s buf).2 k = buf k :=
  (isSafeRun_greedy s buf).2.untouched k hk

theorem perm_range_of_nodup (l : List Nat) (n : Nat) (hnd : l.Nodup)
    (hb : ∀ p, p ∈ l → p < n) (hlen : l.length = n) : l.Perm (List.range n) := by
  apply List.Subperm.perm_of_length_le
  · apply List.subperm_of_subset hnd
    intro p hp
    exact List.mem_range.2 (hb p hp)
  · simp [hlen]

theorem replaySafe_iff (s : State) (l : List Nat) :
    ∀ w : Nat → Int, replaySafe s w l ↔
      ∀ k p, l.get? k = some p →
        needCovered s (fun r => w r + ((l.take k).map (fun q => s.allocation q r)).sum) p := by
  induction l with
  | nil =>
    intro w
    simp [replaySafe]
  | cons q l ih =>
    intro w
    simp only [replaySafe, ih]
    constructor
    · rintro ⟨h0, hrest⟩ k p hk
      cases k with
      | zero =>
        simp at hk
        subst hk
        simpa using h0
      | succ k =>
        simp at hk
        have := hrest k p (by simpa using hk)
        simpa [add_assoc] using this
    · intro h
      constructor
      · have := h 0 q (by simp)
        simpa using this
      · intro k p hk
        have := h (k + 1) p (by simpa using hk)
        simpa [add_assoc] using this

theorem sum_le_of_nodup_subset (f : Nat → Int) (l1 l2 : List Nat) (hnd : l1.Nodup)
    (hsub : l1 ⊆ l2) (hpos : ∀ q, q ∈ l2 → 0 ≤ f q) :
    (l1.map f).sum ≤ (l2.map f).sum := by
  obtain ⟨l, hperm, hsl⟩ := List.subperm_of_subset hnd hsub
  rw [← (hperm.map f).sum_eq]
  apply List.Sublist.sum_le_sum (hsl.map f)
  intro a ha
  obtain ⟨q, hq, rfl⟩ := List.mem_map.1 ha
  exact hpos q hq

theorem stalled_contains (s : State) (g : Greedy) (hg : GreedyInv s g)
    (hnone : firstEligible s g = none)
    (halloc : ∀ p, p < s.num_processes → ∀ r, r < s.num_resources → 0 ≤ s.allocation p r)
    (l : List Nat) (hnd : l.Nodup) (hb : ∀ p, p ∈ l → p < s.num_processes)
    (hre : replaySafe s s.available l) :
    ∀ k p, p ∈ l.take k → p ∈ g.sequence := by
  intro k
  induction k with
  | zero => intro p hp; simp at hp
  | succ k ih =>
    intro p hp
    rw [List.take_succ, List.mem_append] at hp
    rcases hp with hp | hp
    · exact ih p hp
    · have hk : l.get? k = some p := by
        rw [List.get?_eq_getElem?]
        cases hx : l[k]? with
        | none => rw [hx] at hp; simp at hp
        | some x => rw [hx] at hp; simp at hp; rw [hp]
      have hcov := (replaySafe_iff s l s.available).1 hre k p hk
      have hpn : p < s.num_processes := hb p (List.get?_mem hk)
      have hne := (firstEligible_none s g).1 hnone p hpn
      by_contra hnot
      apply hne
      refine ⟨hnot, ?_⟩
      intro r hr
      have h1 := hcov r hr
      have h2 : ((l.take k).map (fun q => s.allocation q r)).sum ≤
          (g.sequence.map (fun q => s.allocation q r)).sum :=
        sum_le_of_nodup_subset _ _ _ (hnd.sublist (List.take_sublist k l)) ih
          (fun q hq => halloc q (hg.bound q hq) r hr)
      have h3 := hg.work_eq r
      simp only [workAfter] at h3
      simp only at h1
      omega

theorem stalled_no_safe_order (s : State) (g : Greedy) (hg : GreedyInv s g)
    (hnone : firstEligible s g = none) (hlen : g.sequence.length < s.num_processes)
    (halloc : ∀ p, p < s.num_processes → ∀ r, r < s.num_resources → 0 ≤ s.allocation p r)
    (l : List Nat) (hl : l.Perm (List.range s.num_processes)) :
    ¬ replaySafe s s.available l := by
  intro hre
  have hnd : l.Nodup := hl.nodup_iff.2 (List.nodup_range _)
  have hb : ∀ p, p ∈ l → p < s.num_processes := fun p hp => List.mem_range.1 (hl.subset hp)
  have hall := stalled_contains s g hg hnone halloc l hnd hb hre l.length
  rw [List.take_length] at hall
  have hsub : List.range s.num_processes ⊆ g.sequence := fun p hp => hall p (hl.symm.subset hp)
  have := (List.subperm_of_subset (List.nodup_range _) hsub).length_le
  simp at this
  omega

/-- C1: if `isSafe` returns true, the first `num_processes` entries of the buffer are a
list `l` of process indices that is a permutation of `0..num_processes-1`, and replaying
`l` from `work = available`, adding `allocation[p]` after each step, finds
`need[p][r] <= work[r]` for every resource at every step. -/
theorem isSafe_sound (s : State) (buf : Nat → Int) (h : (isSafe s buf).1 = true) :
    ∃ l : List Nat,
      (List.range s.num_processes).map (isSafe s buf).2 = List.map (fun p : Nat => (p : Int)) l ∧
      l.Perm (List.range s.num_processes) ∧
      replaySafe s s.available l := by
  rw [isSafe_verdict] at h
  obtain ⟨hinv, htrue, _⟩ := greedy_spec s
  have hlen := htrue h
  refine ⟨(greedy s).2.sequence, ?_, ?_, hinv.replay⟩
  · have := isSafe_written s buf
    rw [hlen] at this
    exact this
  · exact perm_range_of_nodup _ _ hinv.nodup hinv.bound hlen

theorem isSafe_sound_witness :
    ∃ l : List Nat,
      (List.range scenario1Derived.num_processes).map (isSafe scenario1Derived (fun _ => 0)).2
        = List.map (fun p : Nat => (p : Int)) l ∧
      l.Perm (List.range scenario1Derived.num_processes) ∧
      replaySafe scenario1Derived scenario1Derived.available l :=
  isSafe_sound scenario1Derived (fun _ => 0) (by rw [isSafe_verdict]; decide)

/-- C2: on a state whose allocation entries are all non-negative, if `isSafe` returns
false then every permutation `l` of `0..num_processes-1` has a position `k` whose process
`p` needs more of some resource `r` than the work vector holds at that step, the work
vector being `available` plus the allocations of the processes scheduled before `k`. -/
theorem isSafe_complete (s : State) (buf : Nat → Int)
    (halloc : ∀ p, p < s.num_processes → ∀ r, r < s.num_resources → 0 ≤ s.allocation p r)
    (h : (isSafe s buf).1 = false)
    (l : List Nat) (hl : l.Perm (List.range s.num_processes)) :
    ∃ k p r, l.get? k = some p ∧ r < s.num_resources ∧
      s.need p r > workAfter s (l.take k) r := by
  rw [isSafe_verdict] at h
  obtain ⟨hinv, _, hfalse⟩ := greedy_spec s
  have hno := stalled_no_safe_order s _ hinv (hfalse h).2 (hfalse h).1 halloc l hl
  rw [replaySafe_iff] at hno
  simp only [needCovered, workAfter] at hno ⊢
  push_neg at hno
  obtain ⟨k, p, hk, r, hr, hlt⟩ := hno
  exact ⟨k, p, r, hk, hr, hlt⟩

theorem isSafe_complete_witness :
    ∃ k p r, [1, 0].get? k = some p ∧ r < stallAfterOne.num_resources ∧
      stallAfterOne.need p r > workAfter stallAfterOne ([1, 0].take k) r :=
  isSafe_complete stallAfterOne (fun _ => 0) (by decide)
    (by rw [isSafe_verdict]; decide) [1, 0] (by decide)

theorem isSafeRun_count (s : State) (buf : Nat → Int) :
    (isSafeRun s buf).2.count = (greedy s).2.sequence.length :=
  (isSafeRun_greedy s buf).2.count_eq

theorem calculateAvailable_need (s : State) : (calculateAvailable s).need = s.need := by
  rw [calculateAvailable_eq]

theorem derived_dims (s : State) :
    (calculateAvailable (calculateNeed s)).num_processes = s.num_processes ∧
      (calculateAvailable (calculateNeed s)).num_resources = s.num_resources := by
  rw [calculateAvailable_eq, calculateNeed_eq]
  exact ⟨rfl, rfl⟩

theorem main_eval (s : State) (buf : Nat → Int) :
    main (some s) buf =
      if (greedy (calculateAvailable (calculateNeed s))).1 then
        { exitStatus := 0
          report := Report.safeState
            (List.map (fun p : Nat => (p : Int))
              (greedy (calculateAvailable (calculateNeed s))).2.sequence) }
      else { exitStatus := 0, report := Report.notSafeState } := by
  simp only [main]
  rw [isSafe_verdict]
  cases h : (greedy (calculateAvailable (calculateNeed s))).1 with
  | false => simp
  | true =>
    have hlen := (greedy_spec (calculateAvailable (calculateNeed s))).2.1 h
    have := isSafe_written (calculateAvailable (calculateNeed s)) buf
    rw [hlen] at this
    simp [this]

/-- C5, as the code behaves: a loaded input with `max[p][r] < allocation[p][r]` or with
the allocations of a resource exceeding its total is not reported.  The negative need or
available entry is kept, `isSafe` runs on it, and `main` prints the verdict `isSafe`
returns and exits with status 0. -/
theorem main_runs_engine_on_violation (s : State) (buf : Nat → Int)
    (hviol : (∃ p r, p < s.num_processes ∧ r < s.num_resources ∧
          s.max p r < s.allocation p r) ∨
        (∃ r, r < s.num_resources ∧
          s.total r < ((List.range s.num_processes).map (fun p => s.allocation p r)).sum)) :
    ((∃ p r, p < s.num_processes ∧ r < s.num_resources ∧
          (calculateAvailable (calculateNeed s)).need p r < 0) ∨
        (∃ r, r < s.num_resources ∧ (calculateAvailable (calculateNeed s)).available r < 0)) ∧
      (main (some s) buf).exitStatus = 0 ∧
      (main (some s) buf).report =
        if (isSafe (calculateAvailable (calculateNeed s)) buf).1 then
          Report.safeState ((List.range s.num_processes).map
            (isSafe (calculateAvailable (calculateNeed s)) buf).2)
        else Report.notSafeState := by
  refine ⟨?_, ?_, ?_⟩
  · rcases hviol with ⟨p, r, hp, hr, hlt⟩ | ⟨r, hr, hlt⟩
    · left
      refine ⟨p, r, hp, hr, ?_⟩
      rw [calculateAvailable_need, calculateNeed_eq]
      simp only [hp, hr, and_self, if_true]
      omega
    · right
      refine ⟨r, hr, ?_⟩
      rw [calculateAvailable_eq, calculateNeed_eq]
      simp only [hr, if_true]
      omega
  · simp only [main]
    split <;> rfl
  · simp only [main, (derived_dims s).1]
    split <;> rfl

theorem main_runs_engine_on_violation_witness :
    ((∃ p r, p < negativeNeedInput.num_processes ∧ r < negativeNeedInput.num_resources ∧
          (calculateAvailable (calculateNeed negativeNeedInput)).need p r < 0) ∨
        (∃ r, r < negativeNeedInput.num_resources ∧
          (calculateAvailable (calculateNeed negativeNeedInput)).available r < 0)) ∧
      (main (some negativeNeedInput) (fun _ => 0)).exitStatus = 0 ∧
      (main (some negativeNeedInput) (fun _ => 0)).report =
        if (isSafe (calculateAvailable (calculateNeed negativeNeedInput)) (fun _ => 0)).1 then
          Report.safeState ((List.range negativeNeedInput.num_processes).map
            (isSafe (calculateAvailable (calculateNeed negativeNeedInput)) (fun _ => 0)).2)
        else Report.notSafeState :=
  main_runs_engine_on_violation negativeNeedInput (fun _ => 0)
    (Or.inl ⟨0, 0, by decide, by decide, by decide⟩)

/-- C5 fails as stated: on a loaded input with `max[0][0] = 2 < 3 = allocation[0][0]`
the program reports no validation error; it runs the engine on `need = -1` and prints
the verdict SAFE with the sequence `<P0>`, exit status 0. -/
theorem validation_not_performed :
    negativeNeedInput.max 0 0 < negativeNeedInput.allocation 0 0 ∧
      (calculateAvailable (calculateNeed negativeNeedInput)).need 0 0 = -1 ∧
      main (some negativeNeedInput) (fun _ => 0) =
        { exitStatus := 0, report := Report.safeState [0] } := by
  refine ⟨by decide, by decide, ?_⟩
  rw [main_eval]
  decide

theorem scanProcesses_some (s : State) (w : Nat → Int) (f : Nat → Bool) (i : Nat) :
    scanProcesses s w f (List.range s.num_processes) = some i ↔
      i < s.num_processes ∧ f i = false ∧ needCovered s w i ∧
        ∀ j, j < i → f j = true ∨ ¬ needCovered s w j := by
  rw [scanProcesses_eq_find, find_range_some]
  simp only [Bool.and_eq_true, Bool.not_eq_true', canAllocate_iff, Bool.and_eq_false_imp]
  constructor
  · rintro ⟨h1, ⟨h2, h3⟩, h4⟩
    refine ⟨h1, h2, h3, ?_⟩
    intro j hj
    cases hf : f j with
    | true => exact Or.inl rfl
    | false =>
      right
      intro hc
      have := h4 j hj hf
      rw [(canAllocate_iff s j w).2 hc] at this
      cases this
  · rintro ⟨h1, h2, h3, h4⟩
    refine ⟨h1, ⟨h2, h3⟩, ?_⟩
    intro j hj hf
    rcases h4 j hj with h | h
    · rw [hf] at h; cases h
    · cases hc : canAllocate s j w with
      | false => rfl
      | true => exact absurd ((canAllocate_iff s j w).1 hc) h

/-- C6: in any round of the loop of `isSafe`, the process `i` stored at position `count`
is the smallest index that is not finished and whose need is covered by the current
`work`; the sequence `isSafe` writes and its verdict are those of the reference greedy
procedure, which rescans from index 0 in every round and takes the first eligible
process; and the process at every position `k` of that sequence is the smallest index
that is not among the processes scheduled before `k` and whose need is covered by
`available` plus the allocations of the processes scheduled before `k`. -/
theorem isSafe_lowest_index_first (s : State) (buf : Nat → Int) :
    (∀ (st : SafetyRun) (i : Nat), st.count < s.num_processes →
        scanProcesses s st.work st.finish (List.range s.num_processes) = some i →
        isSafeLoop s st = isSafeLoop s (executeProcess s st i) ∧
          (executeProcess s st i).safeSequence st.count = (i : Int) ∧
          i < s.num_processes ∧ st.finish i = false ∧ needCovered s st.work i ∧
          ∀ j, j < i → st.finish j = true ∨ ¬ needCovered s st.work j) ∧
      (isSafe s buf).1 = (greedy s).1 ∧
      (isSafeRun s buf).2.count = (greedy s).2.sequence.length ∧
      (List.range (isSafeRun s buf).2.count).map (isSafe s buf).2 =
        List.map (fun p : Nat => (p : Int)) (greedy s).2.sequence ∧
      lowestEligibleChoices s (greedy s).2.sequence := by
  refine ⟨?_, isSafe_verdict s buf, isSafeRun_count s buf, ?_, (greedy_spec s).1.choices⟩
  · intro st i hc hscan
    refine ⟨?_, ?_, (scanProcesses_some s st.work st.finish i).1 hscan⟩
    · rw [isSafeLoop]
      simp only [hc, if_true, hscan]
    · simp [executeProcess]
  · rw [isSafeRun_count]
    exact isSafe_written s buf

theorem isSafe_lowest_index_first_witness :
    (∀ (st : SafetyRun) (i : Nat), st.count < scenario1Derived.num_processes →
        scanProcesses scenario1Derived st.work st.finish
          (List.range scenario1Derived.num_processes) = some i →
        isSafeLoop scenario1Derived st =
            isSafeLoop scenario1Derived (executeProcess scenario1Derived st i) ∧
          (executeProcess scenario1Derived st i).safeSequence st.count = (i : Int) ∧
          i < scenario1Derived.num_processes ∧ st.finish i = false ∧
          needCovered scenario1Derived st.work i ∧
          ∀ j, j < i → st.finish j = true ∨ ¬ needCovered scenario1Derived st.work j) ∧
      (isSafe scenario1Derived (fun _ => 0)).1 = (greedy scenario1Derived).1 ∧
      (isSafeRun scenario1Derived (fun _ => 0)).2.count =
        (greedy scenario1Derived).2.sequence.length ∧
      (List.range (isSafeRun scenario1Derived (fun _ => 0)).2.count).map
          (isSafe scenario1Derived (fun _ => 0)).2 =
        List.map (fun p : Nat => (p : Int)) (greedy scenario1Derived).2.sequence ∧
      lowestEligibleChoices scenario1Derived (greedy scenario1Derived).2.sequence :=
  isSafe_lowest_index_first scenario1Derived (fun _ => 0)

/-- C9 fails as stated: on Scenario 1 the sequence written by `isSafe` is not
`[1,3,4,0,2]`. -/
theorem scenario1_sequence_differs :
    (List.range 5).map (isSafe scenario1Derived (fun _ => 0)).2 ≠ [1, 3, 4, 0, 2] := by
  have e : (greedy scenario1Derived).2.sequence = [1, 3, 0, 2, 4] := by decide
  have := isSafe_written scenario1Derived (fun _ => 0)
  rw [e] at this
  intro hc
  rw [show ([1, 3, 0, 2, 4] : List Nat).length = 5 from rfl, hc] at this
  revert this
  decide

/-- C9, as the code behaves: on Scenario 1 `isSafe` returns true and writes the sequence
`<P1,P3,P0,P2,P4>`: after `P1` and `P3` the rescan from index 0 finds `P0` eligible
(need `[7,4,3]`, work `[7,4,3]`) before it reaches `P4`. -/
theorem scenario1_sequence (buf : Nat → Int) :
    (isSafe scenario1Derived buf).1 = true ∧
      (List.range 5).map (isSafe scenario1Derived buf).2 = [1, 3, 0, 2, 4] := by
  refine ⟨by rw [isSafe_verdict]; decide, ?_⟩
  have e : (greedy scenario1Derived).2.sequence = [1, 3, 0, 2, 4] := by decide
  have := isSafe_written scenario1Derived buf
  rw [e] at this
  exact this

/-- C10: on Scenario 2 (`available = [-1,1,-3]`) the program prints the UNSAFE verdict,
never SAFE, and `isSafe` returns false leaving every entry of the buffer as it was. -/
theorem scenario2_not_safe (buf : Nat → Int) :
    (List.range 3).map scenario2Derived.available = [-1, 1, -3] ∧
      main (some scenario2) buf = { exitStatus := 0, report := Report.notSafeState } ∧
      isSafe scenario2Derived buf = (false, buf) := by
  refine ⟨by decide, ?_, ?_⟩
  · rw [main_eval]
    decide
  · apply Prod.ext
    · rw [isSafe_verdict]
      show (greedy scenario2Derived).1 = false
      decide
    · funext k
      have e : (greedy scenario2Derived).2.sequence.length = 0 := by decide
      exact isSafe_untouched scenario2Derived buf k (by omega)

/-! ## Scenario 3 and the single-process boundary -/

/-- C11: on Scenario 3 `calculateNeed` yields `need = [[3]]`, `calculateAvailable`
yields `available = [3]`, and `isSafe` on the derived state returns true with
`safeSequence = [0]`; `main` prints SAFE with the sequence `<P0>`. -/
theorem scenario3_safe (buf : Nat → Int) :
    (calculateNeed scenario3).need 0 0 = 3 ∧
      (calculateAvailable scenario3).available 0 = 3 ∧
      scenario3Derived.need 0 0 = 3 ∧
      scenario3Derived.available 0 = 3 ∧
      (isSafe scenario3Derived buf).1 = true ∧
      (List.range 1).map (isSafe scenario3Derived buf).2 = [0] ∧
      main (some scenario3) buf = { exitStatus := 0, report := Report.safeState [0] } := by
  refine ⟨by decide, by decide, by decide, by decide, by rw [isSafe_verdict]; decide, ?_, ?_⟩
  · have e : (greedy scenario3Derived).2.sequence = [0] := by decide
    have := isSafe_written scenario3Derived buf
    rw [e] at this
    exact this
  · rw [main_eval]
    decide

theorem single_idle_greedy (s : State) (hn : s.num_processes = 1)
    (hneed : ∀ r, r < s.num_resources → s.need 0 r = 0)
    (havail : ∀ r, r < s.num_resources → 0 ≤ s.available r) :
    (greedy s).1 = true ∧ (greedy s).2.sequence = [0] := by
  have hfirst : firstEligible s { work := s.available, sequence := [] } = some 0 := by
    rw [firstEligible_some]
    refine ⟨by omega, ⟨by simp, ?_⟩, ?_⟩
    · intro r hr
      rw [hneed r hr]
      exact havail r hr
    · intro i hi
      omega
  simp only [greedy, hn, greedyRounds, hfirst]
  exact ⟨trivial, rfl⟩

/-- C12 fails as stated: with one process of need zero and `available = [-1]` (an
over-allocated resource), `canAllocate(0, work)` is false in the first round and `isSafe`
returns false. -/
theorem idle_process_not_eligible :
    overAllocatedIdle.num_processes = 1 ∧
      (∀ r, r < overAllocatedIdle.num_resources → overAllocatedIdle.need 0 r = 0) ∧
      overAllocatedIdle.available 0 = -1 ∧
      canAllocate overAllocatedIdle 0
        (initialRun overAllocatedIdle (fun _ => 0) (fun _ => false) (fun _ => 0)).work = false ∧
      (isSafe overAllocatedIdle (fun _ => 0)).1 = false := by
  refine ⟨by decide, by decide, by decide, by decide, ?_⟩
  rw [isSafe_verdict]
  decide

/-- C12, as the code behaves: for `num_processes = 1` with `need[0][r] = 0` for every
resource and an available vector without negative entries, process 0 is eligible in the
first round (`canAllocate(0, work)` is true) and `isSafe` returns true with
`safeSequence = [0]`. -/
theorem single_idle_process_safe (s : State) (buf : Nat → Int)
    (hn : s.num_processes = 1)
    (hneed : ∀ r, r < s.num_resources → s.need 0 r = 0)
    (havail : ∀ r, r < s.num_resources → 0 ≤ s.available r) :
    canAllocate s 0 (initialRun s (fun _ => 0) (fun _ => false) buf).work = true ∧
      (isSafe s buf).1 = true ∧
      (List.range 1).map (isSafe s buf).2 = [0] := by
  obtain ⟨hv, hseq⟩ := single_idle_greedy s hn hneed havail
  refine ⟨?_, ?_, ?_⟩
  · rw [canAllocate_iff]
    intro r hr
    rw [hneed r hr, initialRun_work s _ _ buf r hr]
    exact havail r hr
  · rw [isSafe_verdict, hv]
  · have := isSafe_written s buf
    rw [hseq] at this
    exact this

theorem single_idle_process_safe_witness :
    canAllocate idleProcess 0
        (initialRun idleProcess (fun _ => 0) (fun _ => false) (fun _ => 7)).work = true ∧
      (isSafe idleProcess (fun _ => 7)).1 = true ∧
      (List.range 1).map (isSafe idleProcess (fun _ => 7)).2 = [0] :=
  single_idle_process_safe idleProcess (fun _ => 7) (by decide) (by decide) (by decide)

/-! ## Frame and termination of `isSafe` -/

theorem foldl_storeWork_eq (g : State → Nat → Int → Int) (l : List Nat) :
    ∀ m0 : Memory,
      l.foldl (fun m j => storeWork m j (g m.globals j (m.locals.work j))) m0 =
        { globals := m0.globals
          locals := { m0.locals with
            work := l.foldl (fun w j => Function.update w j (g m0.globals j (w j)))
              m0.locals.work } } := by
  induction l with
  | nil => intro m0; rfl
  | cons j js ih =>
    intro m0
    rw [List.foldl_cons, ih]
    rfl

theorem foldl_storeFinish_eq (b : Bool) (l : List Nat) :
    ∀ m0 : Memory,
      l.foldl (fun m i => storeFinish m i b) m0 =
        { globals := m0.globals
          locals := { m0.locals with
            finish := l.foldl (fun f i => Function.update f i b) m0.locals.finish } } := by
  induction l with
  | nil => intro m0; rfl
  | cons j js ih =>
    intro m0
    rw [List.foldl_cons, ih]
    rfl

theorem executeInMemory_eq (m : Memory) (i : Nat) :
    executeInMemory m i =
      { globals := m.globals, locals := executeProcess m.globals m.locals i } := by
  have := foldl_storeWork_eq (fun g j v => v + g.allocation i j)
    (List.range m.globals.num_resources) m
  simp only [executeInMemory]
  rw [this]
  rfl

theorem isSafeMemoryLoop_eq (k : Nat) :
    ∀ m : Memory, m.globals.num_processes - m.locals.count = k →
      isSafeMemoryLoop m =
        ((isSafeLoop m.globals m.locals).1,
          { globals := m.globals, locals := (isSafeLoop m.globals m.locals).2 }) := by
  induction k with
  | zero =>
    intro m hk
    rw [isSafeMemoryLoop, isSafeLoop]
    have : ¬ m.locals.count < m.globals.num_processes := by omega
    simp only [this, if_false]
  | succ k ih =>
    intro m hk
    rw [isSafeMemoryLoop, isSafeLoop]
    have : m.locals.count < m.globals.num_processes := by omega
    simp only [this, if_true]
    cases hs : scanProcesses m.globals m.locals.work m.locals.finish
        (List.range m.globals.num_processes) with
    | none => rfl
    | some i =>
      simp only
      rw [ih (executeInMemory m i) (by rw [executeInMemory_eq]; simp only [executeProcess]; omega)]
      rw [executeInMemory_eq]

theorem isSafeMemory_eq (m : Memory) :
    isSafeMemory m =
      ((isSafeLoop m.globals
          (initialRun m.globals m.locals.work m.locals.finish m.locals.safeSequence)).1,
        { globals := m.globals
          locals := (isSafeLoop m.globals
            (initialRun m.globals m.locals.work m.locals.finish m.locals.safeSequence)).2 }) := by
  have h1 := foldl_storeWork_eq (fun g j _ => g.available j)
    (List.range m.globals.num_resources) m
  simp only [isSafeMemory]
  rw [h1, foldl_storeFinish_eq]
  rw [isSafeMemoryLoop_eq _ _ rfl]
  rfl

/-- C16: `isSafe` does not change the snapshot.  Run on any memory, it leaves the
globals (`num_processes`, `num_resources`, `total`, `available`, `allocation`, `max`,
`need`) equal to their values before the call; its stores go to the locals `work`,
`finish`, `count` and to the `safeSequence` buffer only, and the verdict and buffer are
those of `isSafe`. -/
theorem isSafe_preserves_snapshot (s : State) (buf : Nat → Int) :
    (∀ m : Memory, (isSafeMemory m).2.globals = m.globals) ∧
      (isSafeMemory (entryMemory s buf)).2.globals = s ∧
      (isSafeMemory (entryMemory s buf)).1 = (isSafe s buf).1 ∧
      (isSafeMemory (entryMemory s buf)).2.locals.safeSequence = (isSafe s buf).2 := by
  refine ⟨?_, ?_, ?_, ?_⟩
  · intro m
    rw [isSafeMemory_eq]
  · rw [isSafeMemory_eq]
    rfl
  · rw [isSafeMemory_eq]
    rfl
  · rw [isSafeMemory_eq]
    rfl

theorem isSafeRounds_spec (s : State) (k : Nat) :
    ∀ st : SafetyRun, s.num_processes - st.count = k →
      st.count ≤ (isSafeLoop s st).2.count ∧
      ((isSafeLoop s st).1 = true →
        isSafeRounds s st + st.count = (isSafeLoop s st).2.count ∧
          (st.count ≤ s.num_processes → (isSafeLoop s st).2.count = s.num_processes)) ∧
      ((isSafeLoop s st).1 = false →
        isSafeRounds s st + st.count = (isSafeLoop s st).2.count + 1 ∧
          (isSafeLoop s st).2.count < s.num_processes) := by
  induction k with
  | zero =>
    intro st hk
    rw [isSafeLoop, isSafeRounds]
    have : ¬ st.count < s.num_processes := by omega
    simp only [this, if_false]
    refine ⟨le_refl _, ?_, ?_⟩
    · intro _; exact ⟨by omega, by intro h; omega⟩
    · intro h; cases h
  | succ k ih =>
    intro st hk
    rw [isSafeLoop, isSafeRounds]
    have hlt : st.count < s.num_processes := by omega
    simp only [hlt, if_true]
    cases hs : scanProcesses s st.work st.finish (List.range s.num_processes) with
    | none =>
      dsimp only
      refine ⟨le_refl _, ?_, ?_⟩
      · intro h; cases h
      · intro _; exact ⟨by omega, hlt⟩
    | some i =>
      dsimp only
      have hc : (executeProcess s st i).count = st.count + 1 := rfl
      obtain ⟨h1, h2, h3⟩ := ih (executeProcess s st i) (by rw [hc]; omega)
      rw [hc] at h1 h2 h3
      refine ⟨by omega, ?_, ?_⟩
      · intro h
        obtain ⟨ha, hb⟩ := h2 h
        exact ⟨by omega, fun _ => hb (by omega)⟩
      · intro h
        obtain ⟨ha, hb⟩ := h3 h
        exact ⟨by omega, hb⟩

/-- C17: `isSafe` is a total function, and from its initial state the body of its
`while` loop is entered at most `num_processes` times: exactly `num_processes` times when
it returns true, and once more than the number of processes scheduled when it returns
false.  A round whose scan finds a process `i` marks that previously unfinished process,
and no other, finished and raises `count` by one; a round whose scan finds none returns
false at once. -/
theorem isSafe_round_bound (s : State) (buf : Nat → Int) :
    isSafeRounds s (initialRun s (fun _ => 0) (fun _ => false) buf) ≤ s.num_processes ∧
      ((isSafe s buf).1 = true →
        isSafeRounds s (initialRun s (fun _ => 0) (fun _ => false) buf) = s.num_processes) ∧
      ((isSafe s buf).1 = false →
        isSafeRounds s (initialRun s (fun _ => 0) (fun _ => false) buf) =
          (isSafeRun s buf).2.count + 1) ∧
      (∀ (st : SafetyRun) (i : Nat), st.count < s.num_processes →
        scanProcesses s st.work st.finish (List.range s.num_processes) = some i →
        i < s.num_processes ∧ st.finish i = false ∧
          (executeProcess s st i).finish = Function.update st.finish i true ∧
          (executeProcess s st i).count = st.count + 1 ∧
          isSafeLoop s st = isSafeLoop s (executeProcess s st i) ∧
          isSafeRounds s st = isSafeRounds s (executeProcess s st i) + 1) ∧
      (∀ st : SafetyRun, st.count < s.num_processes →
        scanProcesses s st.work st.finish (List.range s.num_processes) = none →
        isSafeLoop s st = (false, st) ∧ isSafeRounds s st = 1) := by
  obtain ⟨h1, h2, h3⟩ := isSafeRounds_spec s s.num_processes
    (initialRun s (fun _ => 0) (fun _ => false) buf) (by simp [initialRun])
  have hc0 : (initialRun s (fun _ => 0) (fun _ => false) buf).count = 0 := rfl
  rw [hc0] at h1 h2 h3
  have hv : (isSafe s buf).1 =
      (isSafeLoop s (initialRun s (fun _ => 0) (fun _ => false) buf)).1 := rfl
  have hcnt : (isSafeRun s buf).2.count =
      (isSafeLoop s (initialRun s (fun _ => 0) (fun _ => false) buf)).2.count := rfl
  refine ⟨?_, ?_, ?_, ?_, ?_⟩
  · cases hb : (isSafeLoop s (initialRun s (fun _ => 0) (fun _ => false) buf)).1 with
    | true =>
      obtain ⟨ha, hb2⟩ := h2 hb
      have := hb2 (Nat.zero_le _)
      omega
    | false =>
      obtain ⟨ha, hb2⟩ := h3 hb
      omega
  · intro h
    rw [hv] at h
    obtain ⟨ha, hb2⟩ := h2 h
    have := hb2 (Nat.zero_le _)
    omega
  · intro h
    rw [hv] at h
    rw [hcnt]
    obtain ⟨ha, _⟩ := h3 h
    omega
  · intro st i hlt hs
    obtain ⟨hi, hf, _, _⟩ := (scanProcesses_some s st.work st.finish i).1 hs
    refine ⟨hi, hf, rfl, rfl, ?_, ?_⟩
    · rw [isSafeLoop]
      simp only [hlt, if_true, hs]
    · rw [isSafeRounds]
      simp only [hlt, if_true, hs]
  · intro st hlt hs
    constructor
    · rw [isSafeLoop]
      simp only [hlt, if_true, hs]
    · rw [isSafeRounds]
      simp only [hlt, if_true, hs]

theorem isSafe_round_bound_witness :
    isSafeRounds stallAfterOne (initialRun stallAfterOne (fun _ => 0) (fun _ => false)
        (fun _ => 0)) ≤ stallAfterOne.num_processes ∧
      ((isSafe stallAfterOne (fun _ => 0)).1 = true →
        isSafeRounds stallAfterOne (initialRun stallAfterOne (fun _ => 0) (fun _ => false)
          (fun _ => 0)) = stallAfterOne.num_processes) ∧
      ((isSafe stallAfterOne (fun _ => 0)).1 = false →
        isSafeRounds stallAfterOne (initialRun stallAfterOne (fun _ => 0) (fun _ => false)
          (fun _ => 0)) = (isSafeRun stallAfterOne (fun _ => 0)).2.count + 1) ∧
      (∀ (st : SafetyRun) (i : Nat), st.count < stallAfterOne.num_processes →
        scanProcesses stallAfterOne st.work st.finish
          (List.range stallAfterOne.num_processes) = some i →
        i < stallAfterOne.num_processes ∧ st.finish i = false ∧
          (executeProcess stallAfterOne st i).finish = Function.update st.finish i true ∧
          (executeProcess stallAfterOne st i).count = st.count + 1 ∧
          isSafeLoop stallAfterOne st = isSafeLoop stallAfterOne
            (executeProcess stallAfterOne st i) ∧
          isSafeRounds stallAfterOne st =
            isSafeRounds stallAfterOne (executeProcess stallAfterOne st i) + 1) ∧
      (∀ st : SafetyRun, st.count < stallAfterOne.num_processes →
        scanProcesses stallAfterOne st.work st.finish
          (List.range stallAfterOne.num_processes) = none →
        isSafeLoop stallAfterOne st = (false, st) ∧ isSafeRounds stallAfterOne st = 1) :=
  isSafe_round_bound stallAfterOne (fun _ => 0)

/-! ## The non-negativity precondition, monotonicity and conservation -/

theorem negativeAllocationInput_loads :
    readInputFile (some (fileOfLines negativeAllocationInput)) =
      some (loadedState
        ((fgetsLines (fileOfLines negativeAllocationInput) []).foldl readStep startLoader)) := by
  simp only [readInputFile]
  rw [if_neg (by decide)]

/-- C18: on the state with `available = [1]`, `need = [[0],[1]]` and the negative entry
`allocation = [[-1],[0]]`, `isSafe` returns false although the order `<P1,P0>` is a
permutation of the processes whose replay finds every need covered at its step.  The
state is the one the program derives from an input file with the allocation row `P0 -1`,
on which it prints the UNSAFE verdict. -/
theorem negative_allocation_wrong_verdict (buf : Nat → Int) :
    negativeAllocationState.allocation 0 0 = -1 ∧
      (isSafe negativeAllocationState buf).1 = false ∧
      [1, 0].Perm (List.range negativeAllocationState.num_processes) ∧
      replaySafe negativeAllocationState negativeAllocationState.available [1, 0] ∧
      (∃ s0 : State,
        readInputFile (some (fileOfLines negativeAllocationInput)) = some s0 ∧
        (calculateAvailable (calculateNeed s0)).num_processes = 2 ∧
        (calculateAvailable (calculateNeed s0)).num_resources = 1 ∧
        (List.range 1).map (calculateAvailable (calculateNeed s0)).available = [1] ∧
        (List.range 2).map (fun p => (calculateAvailable (calculateNeed s0)).need p 0)
          = [0, 1] ∧
        (List.range 2).map (fun p => (calculateAvailable (calculateNeed s0)).allocation p 0)
          = [-1, 0] ∧
        (isSafe (calculateAvailable (calculateNeed s0)) buf).1 = false ∧
        replaySafe (calculateAvailable (calculateNeed s0))
          (calculateAvailable (calculateNeed s0)).available [1, 0]) ∧
      runProgram (some (fileOfLines negativeAllocationInput)) buf =
        { exitStatus := 0, report := Report.notSafeState } := by
  refine ⟨by decide, ?_, by decide, by decide, ?_, ?_⟩
  · rw [isSafe_verdict]
    decide
  · refine ⟨_, negativeAllocationInput_loads, by decide, by decide, by decide, by decide,
      by decide, ?_, by decide⟩
    rw [isSafe_verdict]
    decide
  · rw [runProgram, negativeAllocationInput_loads, main_eval]
    decide

theorem replaySafe_mono (s : State) (l : List Nat) :
    ∀ w w2 : Nat → Int, (∀ r, r < s.num_resources → w r ≤ w2 r) →
      replaySafe s w l → replaySafe s w2 l := by
  induction l with
  | nil => intro _ _ _ _; trivial
  | cons p ps ih =>
    intro w w2 hle h
    refine ⟨?_, ?_⟩
    · intro r hr
      exact le_trans (h.1 r hr) (hle r hr)
    · apply ih _ _ _ h.2
      intro r hr
      have := hle r hr
      omega

theorem replaySafe_available_irrelevant (s : State) (a : Nat → Int) (l : List Nat) :
    ∀ w : Nat → Int, replaySafe { s with available := a } w l ↔ replaySafe s w l := by
  induction l with
  | nil => intro _; exact Iff.rfl
  | cons p ps ih =>
    intro w
    simp only [replaySafe]
    rw [ih]
    exact Iff.rfl

/-- C19: with all allocation entries non-negative, if `isSafe` returns true from the
available vector of `s`, it returns true from every available vector `a` that is at
least as large on every resource, allocation and need being the same. -/
theorem isSafe_monotone (s : State) (a : Nat → Int) (buf buf2 : Nat → Int)
    (halloc : ∀ p, p < s.num_processes → ∀ r, r < s.num_resources → 0 ≤ s.allocation p r)
    (hge : ∀ r, r < s.num_resources → s.available r ≤ a r)
    (h : (isSafe s buf).1 = true) :
    (isSafe { s with available := a } buf2).1 = true := by
  rw [isSafe_verdict] at h
  obtain ⟨hinv, htrue, _⟩ := greedy_spec s
  have hperm := perm_range_of_nodup _ _ hinv.nodup hinv.bound (htrue h)
  have hre : replaySafe { s with available := a } a (greedy s).2.sequence :=
    (replaySafe_available_irrelevant s a _ a).2
      (replaySafe_mono s _ _ _ hge hinv.replay)
  cases hv : (isSafe { s with available := a } buf2).1 with
  | true => rfl
  | false =>
    exfalso
    rw [isSafe_verdict] at hv
    obtain ⟨hinv2, _, hfalse⟩ := greedy_spec { s with available := a }
    exact stalled_no_safe_order { s with available := a } _ hinv2 (hfalse hv).2 (hfalse hv).1
      halloc _ hperm hre

theorem isSafe_monotone_witness :
    (isSafe { scenario1Derived with available := fun _ => 9 } (fun _ => 0)).1 = true :=
  isSafe_monotone scenario1Derived (fun _ => 9) (fun _ => 0) (fun _ => 0) (by decide)
    (by decide) (by rw [isSafe_verdict]; decide)

theorem sum_filter_update (g : Nat → Int) (f : Nat → Bool) (i : Nat) (hf : f i = false) :
    ∀ n, i < n →
      (((List.range n).filter (fun p => Function.update f i true p)).map g).sum =
        (((List.range n).filter (fun p => f p)).map g).sum + g i := by
  intro n
  induction n with
  | zero => intro h; omega
  | succ n ih =>
    intro h
    rw [List.range_succ, List.filter_append, List.filter_append, List.map_append,
      List.map_append, List.sum_append, List.sum_append]
    by_cases hin : i = n
    · subst hin
      have hsame : (List.range i).filter (fun p => Function.update f i true p) =
          (List.range i).filter (fun p => f p) := by
        apply List.filter_congr
        intro x hx
        have : x ≠ i := by have := List.mem_range.1 hx; omega
        simp [Function.update_noteq this]
      rw [hsame]
      simp [hf]
    · have hlt : i < n := by omega
      rw [ih hlt]
      have hn : Function.update f i true n = f n := Function.update_noteq (Ne.symm hin) _ _
      simp only [List.filter_cons, List.filter_nil, hn]
      ring

theorem workConserved_initial (s : State) (jw : Nat → Int) (jf : Nat → Bool)
    (buf : Nat → Int) : workConserved s (initialRun s jw jf buf) := by
  intro r hr
  rw [initialRun_work s jw jf buf r hr]
  have : (List.range s.num_processes).filter (fun p => (initialRun s jw jf buf).finish p) = [] := by
    rw [List.filter_eq_nil_iff]
    intro p hp
    rw [initialRun_finish s jw jf buf p (List.mem_range.1 hp)]
    simp
  simp [finishedSum, this]

theorem workConserved_step (s : State) (st : SafetyRun) (i : Nat)
    (h : workConserved s st)
    (hs : scanProcesses s st.work st.finish (List.range s.num_processes) = some i) :
    workConserved s (executeProcess s st i) := by
  obtain ⟨hi, hf, _, _⟩ := (scanProcesses_some s st.work st.finish i).1 hs
  intro r hr
  simp only [executeProcess, finishedSum]
  rw [releaseResources_apply, if_pos hr, h r hr,
    sum_filter_update (fun p => s.allocation p r) st.finish i hf s.num_processes hi]
  simp only [finishedSum]
  ring

theorem workConserved_loop (s : State) (k : Nat) :
    ∀ st : SafetyRun, s.num_processes - st.count = k → workConserved s st →
      workConserved s (isSafeLoop s st).2 := by
  induction k with
  | zero =>
    intro st hk h
    rw [isSafeLoop]
    have : ¬ st.count < s.num_processes := by omega
    simp only [this, if_false]
    exact h
  | succ k ih =>
    intro st hk h
    rw [isSafeLoop]
    have hlt : st.count < s.num_processes := by omega
    simp only [hlt, if_true]
    cases hs : scanProcesses s st.work st.finish (List.range s.num_processes) with
    | none => exact h
    | some i =>
      dsimp only
      exact ih _ (by simp only [executeProcess]; omega) (workConserved_step s st i h hs)

theorem all_finished_of_true (s : State) (buf : Nat → Int) (h : (isSafe s buf).1 = true) :
    ∀ p, p < s.num_processes → (isSafeRun s buf).2.finish p = true := by
  intro p hp
  rw [isSafe_verdict] at h
  obtain ⟨hinv, htrue, _⟩ := greedy_spec s
  have hperm := perm_range_of_nodup _ _ hinv.nodup hinv.bound (htrue h)
  rw [(isSafeRun_greedy s buf).2.finish_iff p hp]
  exact hperm.symm.subset (List.mem_range.2 hp)

/-- C20: work-vector conservation.  `work[r] = available[r] + ` the sum of
`allocation[p][r]` over the finished processes holds when the loop of `isSafe` is
entered, is kept by every round that schedules a process, and holds when `isSafe`
returns; and when `available` was produced by `calculateAvailable` and `isSafe` returns
true, the final `work[r]` equals `total[r]` for every resource. -/
theorem work_conservation (s : State) (buf : Nat → Int) :
    workConserved s (initialRun s (fun _ => 0) (fun _ => false) buf) ∧
      (∀ (st : SafetyRun) (i : Nat), workConserved s st → st.count < s.num_processes →
        scanProcesses s st.work st.finish (List.range s.num_processes) = some i →
        workConserved s (executeProcess s st i)) ∧
      workConserved s (isSafeRun s buf).2 ∧
      (∀ s0 : State, calculateAvailable s0 = s → (isSafe s buf).1 = true →
        ∀ r, r < s.num_resources → (isSafeRun s buf).2.work r = s.total r) := by
  have hfinal : workConserved s (isSafeRun s buf).2 :=
    workConserved_loop s s.num_processes _ (by simp [initialRun])
      (workConserved_initial s _ _ buf)
  refine ⟨workConserved_initial s _ _ buf, ?_, hfinal, ?_⟩
  · intro st i h _ hs
    exact workConserved_step s st i h hs
  · intro s0 hs0 hv r hr
    have hall := all_finished_of_true s buf hv
    have hfilter : (List.range s.num_processes).filter
        (fun p => (isSafeRun s buf).2.finish p) = List.range s.num_processes := by
      rw [List.filter_eq_self]
      intro p hp
      exact hall p (List.mem_range.1 hp)
    rw [hfinal r hr]
    simp only [finishedSum, hfilter]
    subst hs0
    rw [calculateAvailable_eq] at hr ⊢
    simp only at hr ⊢
    rw [if_pos hr]
    ring

theorem work_conservation_witness :
    workConserved scenario1Derived
        (initialRun scenario1Derived (fun _ => 0) (fun _ => false) (fun _ => 0)) ∧
      (∀ (st : SafetyRun) (i : Nat), workConserved scenario1Derived st →
        st.count < scenario1Derived.num_processes →
        scanProcesses scenario1Derived st.work st.finish
          (List.range scenario1Derived.num_processes) = some i →
        workConserved scenario1Derived (executeProcess scenario1Derived st i)) ∧
      workConserved scenario1Derived (isSafeRun scenario1Derived (fun _ => 0)).2 ∧
      (∀ s0 : State, calculateAvailable s0 = scenario1Derived →
        (isSafe scenario1Derived (fun _ => 0)).1 = true →
        ∀ r, r < scenario1Derived.num_resources →
          (isSafeRun scenario1Derived (fun _ => 0)).2.work r = scenario1Derived.total r) :=
  work_conservation scenario1Derived (fun _ => 0)

/-! ## The loader counts rows -/

theorem foldl_readStep (chunks : List (List Char)) :
    ∀ ld : Loader, chunks.foldl readStep ld =
      ((chunks.map cString).filter isValidLine).foldl processLine ld := by
  induction chunks with
  | nil => intro ld; rfl
  | cons c cs ih =>
    intro ld
    simp only [List.foldl_cons, List.map_cons, List.filter_cons, readStep]
    by_cases h : isValidLine (cString c) = true
    · simp only [h, if_true, List.foldl_cons]
      exact ih _
    · simp only [h, if_false]
      exact ih _

theorem readValues_le (m : Int) (vals : List (List Char)) :
    ∀ (i : Nat) (row : Nat → Int), (readValues m vals i row).1 ≤ i + vals.length := by
  induction vals with
  | nil => intro i row; simp [readValues]
  | cons t ts ih =>
    intro i row
    simp only [readValues]
    split
    · have := ih (i + 1) (Function.update row i (atoi t))
      simp only [List.length_cons]
      omega
    · simp

theorem readValues_complete (m : Int) (line : List Char) (name : List Char)
    (vals : List (List Char)) (row : Nat → Int) (ht : strtokAll line [] = name :: vals)
    (h : ((readValues m vals 0 row).1 : Int) = m) : completeRow m line := by
  have h1 := readValues_le m vals 0 row
  refine ⟨by rw [ht]; simp, by omega, ?_⟩
  simp only [valueCount, ht, List.length_cons]
  omega

theorem processLine_section1 (ld : Loader) (line : List Char) (h : ld.sectionNo = 1) :
    (processLine ld line).num_processes = ld.num_processes ∧
      (processLine ld line).num_resources = ld.num_resources ∧
      1 ≤ (processLine ld line).sectionNo ∧
      rowsRead (processLine ld line) = 0 := by
  simp only [processLine, h]
  simp only [Nat.one_ne_zero, if_false, if_true]
  split <;> simp [rowsRead, h]

theorem processLine_rows (ld : Loader) (line : List Char) (h : 1 ≤ ld.sectionNo) :
    (processLine ld line).num_processes = ld.num_processes ∧
      (processLine ld line).num_resources = ld.num_resources ∧
      1 ≤ (processLine ld line).sectionNo ∧
      rowsRead (processLine ld line) ≤
        rowsRead ld + (if completeRow ld.num_resources line then 1 else 0) := by
  have hpos : (0 : Int) ≤ if completeRow ld.num_resources line then 1 else 0 := by
    split <;> omega
  by_cases h1 : ld.sectionNo = 1
  · obtain ⟨a, b, c, d⟩ := processLine_section1 ld line h1
    refine ⟨a, b, c, ?_⟩
    rw [d]
    simp only [rowsRead, h1]
    simpa using hpos
  by_cases h2 : ld.sectionNo = 2
  · simp only [processLine, h2]
    simp only [OfNat.ofNat_ne_zero, OfNat.ofNat_ne_one, if_false, if_true]
    cases ht : strtokAll line [] with
    | nil =>
      simp only [rowsRead, h2]
      refine ⟨trivial, trivial, by omega, ?_⟩
      simpa using hpos
    | cons name vals =>
      simp only
      by_cases hc : ((readValues ld.num_resources vals 0 (ld.allocation ld.process_count)).1 : Int)
          = ld.num_resources
      · have hcomp := readValues_complete _ line name vals _ ht hc
        simp only [hc, if_true, hcomp]
        by_cases hn : ((ld.process_count + 1 : Nat) : Int) = ld.num_processes
        · simp only [hn, if_true, rowsRead, h2]
          refine ⟨trivial, trivial, by omega, ?_⟩
          simp
          omega
        · simp only [hn, if_false, rowsRead, h2]
          refine ⟨trivial, trivial, by omega, ?_⟩
          simp
      · simp only [hc, if_false, rowsRead, h2]
        refine ⟨trivial, trivial, by omega, ?_⟩
        simpa using hpos
  by_cases h3 : ld.sectionNo = 3
  · have h32 : ¬ (3 : Nat) = 2 := by decide
    simp only [processLine, h3]
    simp only [OfNat.ofNat_ne_zero, OfNat.ofNat_ne_one, h32, if_false, if_true]
    cases ht : strtokAll line [] with
    | nil =>
      simp only [rowsRead, h3, h32, if_false, if_true]
      refine ⟨trivial, trivial, by omega, ?_⟩
      simpa using hpos
    | cons name vals =>
      simp only
      by_cases hc : ((readValues ld.num_resources vals 0 (ld.max ld.process_count)).1 : Int)
          = ld.num_resources
      · have hcomp := readValues_complete _ line name vals _ ht hc
        simp only [hc, if_true, hcomp]
        by_cases hn : ((ld.process_count + 1 : Nat) : Int) = ld.num_processes
        · simp only [hn, if_true, rowsRead, h3, h32, if_false]
          refine ⟨trivial, trivial, by omega, ?_⟩
          simp
          omega
        · simp only [hn, if_false, rowsRead, h3, h32, if_true]
          refine ⟨trivial, trivial, by omega, ?_⟩
          simp
          omega
      · simp only [hc, if_false, rowsRead, h3, h32, if_true]
        refine ⟨trivial, trivial, by omega, ?_⟩
        simpa using hpos
  · have : processLine ld line = ld := by
      simp only [processLine]
      have h0 : ld.sectionNo ≠ 0 := by omega
      simp only [h0, h1, h2, h3, if_false]
    rw [this]
    refine ⟨rfl, rfl, h, ?_⟩
    omega

theorem foldl_processLine_rows (lines : List (List Char)) :
    ∀ ld : Loader, 1 ≤ ld.sectionNo →
      (lines.foldl processLine ld).num_processes = ld.num_processes ∧
      (lines.foldl processLine ld).num_resources = ld.num_resources ∧
      1 ≤ (lines.foldl processLine ld).sectionNo ∧
      rowsRead (lines.foldl processLine ld) ≤
        rowsRead ld +
          (lines.countP (fun l => decide (completeRow ld.num_resources l)) : Nat) := by
  induction lines with
  | nil =>
    intro ld h
    simp [h]
  | cons l ls ih =>
    intro ld h
    obtain ⟨a, b, c, d⟩ := processLine_rows ld l h
    obtain ⟨a2, b2, c2, d2⟩ := ih (processLine ld l) c
    rw [List.foldl_cons]
    refine ⟨a2.trans a, b2.trans b, c2, ?_⟩
    rw [b] at d2
    rw [List.countP_cons]
    by_cases hc : completeRow ld.num_resources l
    · simp only [hc, if_true, decide_True] at d ⊢
      push_cast
      omega
    · simp only [hc, if_false, decide_False] at d ⊢
      push_cast
      omega

theorem processLine_header (line : List Char) (n m : Int)
    (h : sscanfHeader line = (some n, some m)) :
    processLine startLoader line =
      { startLoader with num_processes := n, num_resources := m, sectionNo := 1 } := by
  simp only [processLine, startLoader, h, if_true]

theorem rows_after_header (ld1 : Loader) (t : List Char) (rows : List (List Char))
    (h1 : ld1.sectionNo = 1)
    (hcount : ((rows.countP (fun l => decide (completeRow ld1.num_resources l)) : Nat) : Int)
      < 2 * ld1.num_processes) :
    (rows.foldl processLine (processLine ld1 t)).sectionNo ≠ 4 := by
  obtain ⟨a, b, c, d⟩ := processLine_section1 ld1 t h1
  obtain ⟨a2, b2, c2, d2⟩ := foldl_processLine_rows rows _ c
  rw [d, b] at d2
  rw [a] at a2
  intro h4
  have : rowsRead (rows.foldl processLine (processLine ld1 t)) = 2 * ld1.num_processes := by
    simp only [rowsRead, h4]
    simp [a2]
  omega

theorem load_requires_rows (content h t : List Char) (rows : List (List Char)) (n m : Int)
    (hlive : liveLines content = h :: t :: rows)
    (hh : sscanfHeader h = (some n, some m))
    (hcount : ((rows.countP (fun l => decide (completeRow m l)) : Nat) : Int) < 2 * n) :
    readInputFile (some content) = none := by
  simp only [readInputFile]
  rw [foldl_readStep]
  have hl : (List.map cString (fgetsLines content [])).filter isValidLine = h :: t :: rows :=
    hlive
  rw [hl, List.foldl_cons, List.foldl_cons, processLine_header h n m hh]
  rw [if_pos]
  exact rows_after_header _ t rows rfl hcount

theorem fgetsLines_append_newline (l rest : List Char) :
    ∀ cur : List Char,
      fgetsLines (l ++ '\n' :: rest) cur = fgetsLines (l ++ ['\n']) cur ++ fgetsLines rest [] := by
  induction l with
  | nil =>
    intro cur
    simp [fgetsLines]
  | cons c cs ih =>
    intro cur
    rw [List.cons_append, List.cons_append, fgetsLines, fgetsLines]
    split
    · rw [ih]
      rfl
    · exact ih _

theorem fgetsLines_fileOfLines_append (a b : List (List Char)) :
    fgetsLines (fileOfLines (a ++ b)) [] =
      fgetsLines (fileOfLines a) [] ++ fgetsLines (fileOfLines b) [] := by
  induction a with
  | nil => simp [fileOfLines, fgetsLines]
  | cons l ls ih =>
    rw [List.cons_append, fileOfLines, fileOfLines]
    rw [fgetsLines_append_newline, fgetsLines_append_newline l (fileOfLines ls), ih,
      List.append_assoc]

theorem fgetsLines_short (c : List Char) (hnl : '\n' ∉ c) :
    ∀ cur : List Char, cur.length + c.length + 1 ≤ MAX_LINE - 1 →
      fgetsLines (c ++ ['\n']) cur = [cur.reverse ++ c ++ ['\n']] := by
  induction c with
  | nil =>
    intro cur _
    simp [fgetsLines]
  | cons x xs ih =>
    intro cur hlen
    have hx : x ≠ '\n' := fun h => hnl (by simp [h])
    have hxs : '\n' ∉ xs := fun h => hnl (List.mem_cons_of_mem _ h)
    simp only [List.length_cons] at hlen
    have hne : ¬ (x = '\n' ∨ cur.length + 1 = MAX_LINE - 1) := by
      rintro (h | h)
      · exact hx h
      · omega
    rw [List.cons_append, fgetsLines, if_neg hne]
    rw [ih hxs (x :: cur) (by simp only [List.length_cons]; omega)]
    simp

theorem skipped_line (c : List Char) (hc : c = [] ∨ c.head? = some '#') :
    isValidLine (cString (c ++ ['\n'])) = false := by
  rcases hc with h | h
  · subst h
    decide
  · cases c with
    | nil => simp at h
    | cons x xs =>
      simp only [List.head?_cons, Option.some.injEq] at h
      subst h
      simp [cString, List.takeWhile, isValidLine]

theorem fgetsLines_full (c : List Char) (hnl : '\n' ∉ c) :
    ∀ cur : List Char, c ≠ [] → cur.length + c.length = MAX_LINE - 1 →
      fgetsLines (c ++ ['\n']) cur = [cur.reverse ++ c, ['\n']] := by
  induction c with
  | nil => intro cur h _; exact absurd rfl h
  | cons x xs ih =>
    intro cur _ hlen
    have hx : x ≠ '\n' := fun h => hnl (by simp [h])
    have hxs : '\n' ∉ xs := fun h => hnl (List.mem_cons_of_mem _ h)
    simp only [List.length_cons] at hlen
    cases xs with
    | nil =>
      simp only [List.length_nil] at hlen
      have hy : x = '\n' ∨ cur.length + 1 = MAX_LINE - 1 := Or.inr (by omega)
      rw [List.cons_append, fgetsLines, if_pos hy]
      simp [fgetsLines]
    | cons y ys =>
      simp only [List.length_cons] at hlen
      have hne : ¬ (x = '\n' ∨ cur.length + 1 = MAX_LINE - 1) := by
        rintro (h | h)
        · exact hx h
        · omega
      rw [List.cons_append, fgetsLines, if_neg hne]
      rw [ih hxs (x :: cur) (by simp) (by simp only [List.length_cons]; omega)]
      simp

theorem comment_chunks_skipped (c : List Char) (hc : c = [] ∨ c.head? = some '#')
    (hnl : '\n' ∉ c) (hlen : c.length ≤ MAX_LINE - 1) (ld : Loader) :
    (fgetsLines (c ++ ['\n']) []).foldl readStep ld = ld := by
  by_cases hshort : c.length + 1 ≤ MAX_LINE - 1
  · rw [fgetsLines_short c hnl [] (by simpa using hshort)]
    simp only [List.reverse_nil, List.nil_append, List.foldl_cons, List.foldl_nil, readStep,
      skipped_line c hc]
    rfl
  · have hfull : c.length = MAX_LINE - 1 := by omega
    have hne : c ≠ [] := by
      intro h
      rw [h] at hfull
      simp [MAX_LINE] at hfull
    rw [fgetsLines_full c hnl [] hne (by simpa using hfull)]
    have hhead : isValidLine (cString c) = false := by
      rcases hc with h | h
      · exact absurd h hne
      · cases c with
        | nil => exact absurd rfl hne
        | cons x xs =>
          simp only [List.head?_cons, Option.some.injEq] at h
          subst h
          simp [cString, List.takeWhile, isValidLine]
    have hnewline : isValidLine (cString ['\n']) = false := by decide
    simp only [List.reverse_nil, List.nil_append, List.foldl_cons, List.foldl_nil, readStep,
      hhead, hnewline]
    rfl

theorem processLine_dimensions (ld : Loader) (line : List Char)
    (h : dimensionsAccepted ld) : dimensionsAccepted (processLine ld line) := by
  have h20 : ¬ (2 : Nat) = 0 := by decide
  have h21 : ¬ (2 : Nat) = 1 := by decide
  have h30 : ¬ (3 : Nat) = 0 := by decide
  have h31 : ¬ (3 : Nat) = 1 := by decide
  have h32 : ¬ (3 : Nat) = 2 := by decide
  by_cases h0 : ld.sectionNo = 0
  · have : (processLine ld line).sectionNo ≤ 1 := by
      simp only [processLine, h0, if_true]
      split <;> simp [h0]
    exact ⟨fun h2 => by omega, fun h3 => by omega⟩
  by_cases h1 : ld.sectionNo = 1
  · simp only [processLine, h1, Nat.one_ne_zero, if_false, if_true]
    split
    · rename_i hc
      refine ⟨fun _ => ?_, fun h3 => ?_⟩
      · simp only
        omega
      · simp only at h3
        omega
    · refine ⟨fun h2 => ?_, fun h3 => ?_⟩
      · simp only at h2
        omega
      · simp only at h3
        omega
  by_cases h2 : ld.sectionNo = 2
  · have hm := h.1 (by omega)
    simp only [processLine, h2, h20, h21, if_false, if_true]
    split
    · exact ⟨fun _ => hm, fun h3 => by rw [h2] at h3; omega⟩
    · split
      · split
        · rename_i hn
          refine ⟨fun _ => hm, fun _ => ?_⟩
          simp only
          omega
        · refine ⟨fun _ => hm, fun h3 => ?_⟩
          simp only at h3
          omega
      · refine ⟨fun _ => hm, fun h3 => ?_⟩
        simp only at h3
        omega
  by_cases h3 : ld.sectionNo = 3
  · have hm := h.1 (by omega)
    have hn := h.2 (by omega)
    simp only [processLine, h3, h30, h31, h32, if_false, if_true]
    split
    · exact ⟨fun _ => hm, fun _ => hn⟩
    · split
      · split
        · exact ⟨fun _ => hm, fun _ => hn⟩
        · exact ⟨fun _ => hm, fun _ => hn⟩
      · exact ⟨fun _ => hm, fun _ => hn⟩
  · have : processLine ld line = ld := by
      simp only [processLine]
      simp only [h0, h1, h2, h3, if_false]
    rw [this]
    exact h

theorem foldl_readStep_dimensions (chunks : List (List Char)) :
    ∀ ld : Loader, dimensionsAccepted ld →
      dimensionsAccepted (chunks.foldl readStep ld) := by
  induction chunks with
  | nil => intro ld h; exact h
  | cons c cs ih =>
    intro ld h
    rw [List.foldl_cons]
    apply ih
    simp only [readStep]
    split
    · exact processLine_dimensions ld _ h
    · exact h

theorem loaded_dimensions (content : List Char) (s : State)
    (h : readInputFile (some content) = some s) :
    ∃ ld : Loader, s = loadedState ld ∧ 1 ≤ ld.num_processes ∧ 0 ≤ ld.num_resources ∧
      (s.num_processes : Int) = ld.num_processes ∧
      (s.num_resources : Int) = ld.num_resources := by
  simp only [readInputFile] at h
  split at h
  · cases h
  · rename_i h4
    have h4b : ((fgetsLines content []).foldl readStep startLoader).sectionNo = 4 := by
      by_contra hne
      exact h4 hne
    have hd := foldl_readStep_dimensions (fgetsLines content []) startLoader
      ⟨fun h2 => by simp [startLoader] at h2, fun h3 => by simp [startLoader] at h3⟩
    have hn := hd.2 (by omega)
    have hm := hd.1 (by omega)
    refine ⟨_, (Option.some.inj h).symm, hn, hm, ?_, ?_⟩
    · rw [← Option.some.inj h]
      simp only [loadedState]
      omega
    · rw [← Option.some.inj h]
      simp only [loadedState]
      omega

theorem readValues_surplus (m : Int) (extra : List (List Char)) (vals : List (List Char)) :
    ∀ (i : Nat) (row : Nat → Int), ((i + vals.length : Nat) : Int) = m →
      readValues m (vals ++ extra) i row = readValues m vals i row := by
  induction vals with
  | nil =>
    intro i row h
    simp only [List.length_nil, Nat.add_zero] at h
    cases extra with
    | nil => rfl
    | cons t ts =>
      have : ¬ (i : Int) < m := by omega
      simp [readValues, this]
  | cons v vs ih =>
    intro i row h
    rw [List.cons_append, readValues, readValues]
    split
    · apply ih
      simp only [List.length_cons] at h
      rw [← h]
      push_cast
      ring
    · rfl

theorem processLine_surplus (ld : Loader) (l1 l2 n1 n2 : List Char)
    (vals extra : List (List Char)) (hs : ld.sectionNo = 2 ∨ ld.sectionNo = 3)
    (h1 : strtokAll l1 [] = n1 :: vals) (h2 : strtokAll l2 [] = n2 :: (vals ++ extra))
    (hm : (vals.length : Int) = ld.num_resources) :
    processLine ld l2 = processLine ld l1 := by
  have key : ∀ row, readValues ld.num_resources (vals ++ extra) 0 row =
      readValues ld.num_resources vals 0 row :=
    fun row => readValues_surplus _ extra vals 0 row (by simpa using hm)
  have h20 : ¬ (2 : Nat) = 0 := by decide
  have h21 : ¬ (2 : Nat) = 1 := by decide
  have h30 : ¬ (3 : Nat) = 0 := by decide
  have h31 : ¬ (3 : Nat) = 1 := by decide
  have h32 : ¬ (3 : Nat) = 2 := by decide
  rcases hs with hs | hs
  · simp only [processLine, hs, h1, h2, key, h20, h21, if_false, if_true]
  · simp only [processLine, hs, h1, h2, key, h30, h31, h32, if_false, if_true]

theorem runProgram_none (file : Option (List Char)) (buf : Nat → Int)
    (h : readInputFile file = none) :
    runProgram file buf = { exitStatus := 1, report := Report.readFailure } := by
  simp only [runProgram, h, main]

theorem readInputFile_loaded (content : List Char)
    (h : (loaderAfter content).sectionNo = 4) :
    readInputFile (some content) = some (loadedState (loaderAfter content)) := by
  have h4 : ¬ ((fgetsLines content []).foldl readStep startLoader).sectionNo ≠ 4 :=
    fun hne => hne h
  simp only [readInputFile]
  rw [if_neg h4]
  rfl

/-! ## Files whose lines fit the line buffer -/

theorem fgetsLines_fit (lines : List (List Char)) (hfit : ∀ l, l ∈ lines → lineFits l) :
    fgetsLines (fileOfLines lines) [] = lines.map (fun l => l ++ ['\n']) := by
  induction lines with
  | nil => simp [fileOfLines, fgetsLines]
  | cons l ls ih =>
    have hl := hfit l (List.mem_cons_self l ls)
    rw [fileOfLines, fgetsLines_append_newline,
      fgetsLines_short l hl.1 [] (by have := hl.2; simp only [MAX_LINE] at this ⊢
                                     simp only [List.length_nil]; omega),
      ih (fun x hx => hfit x (List.mem_cons_of_mem l hx))]
    simp

theorem liveLines_fit (lines : List (List Char)) (hfit : ∀ l, l ∈ lines → lineFits l) :
    liveLines (fileOfLines lines) =
      (lines.filter (fun l => isValidLine (lineAsRead l))).map lineAsRead := by
  unfold liveLines
  rw [fgetsLines_fit lines hfit, List.map_map, List.filter_map]
  rfl

theorem load_requires_rows_fit (lines : List (List Char)) (h t : List Char)
    (rows : List (List Char)) (n m : Int)
    (hfit : ∀ l, l ∈ lines → lineFits l)
    (hlive : lines.filter (fun l => isValidLine (lineAsRead l)) = h :: t :: rows)
    (hh : sscanfHeader (lineAsRead h) = (some n, some m))
    (hcount : ((rows.countP (fun l => decide (completeRow m (lineAsRead l))) : Nat) : Int)
      < 2 * n) :
    readInputFile (some (fileOfLines lines)) = none := by
  apply load_requires_rows (fileOfLines lines) (lineAsRead h) (lineAsRead t)
    (rows.map lineAsRead) n m
  · rw [liveLines_fit lines hfit, hlive]
    rfl
  · exact hh
  · rw [List.countP_map]
    exact hcount

theorem fgetsLines_insert_fit (a b : List (List Char)) (l : List Char) (hl : lineFits l) :
    fgetsLines (fileOfLines (a ++ l :: b)) [] =
      fgetsLines (fileOfLines a) [] ++ ((l ++ ['\n']) :: fgetsLines (fileOfLines b) []) := by
  rw [fgetsLines_fileOfLines_append, fileOfLines, fgetsLines_append_newline,
    fgetsLines_short l hl.1 [] (by have := hl.2; simp only [MAX_LINE] at this ⊢
                                   simp only [List.length_nil]; omega)]
  simp

theorem readInputFile_replace_row (a b : List (List Char)) (l1 l2 n1 n2 : List Char)
    (vals extra : List (List Char)) (h1 : lineFits l1) (h2 : lineFits l2)
    (hv1 : isValidLine (lineAsRead l1) = true) (hv2 : isValidLine (lineAsRead l2) = true)
    (ht1 : strtokAll (lineAsRead l1) [] = n1 :: vals)
    (ht2 : strtokAll (lineAsRead l2) [] = n2 :: (vals ++ extra))
    (hs : (loaderAfter (fileOfLines a)).sectionNo = 2 ∨
      (loaderAfter (fileOfLines a)).sectionNo = 3)
    (hm : (vals.length : Int) = (loaderAfter (fileOfLines a)).num_resources) :
    readInputFile (some (fileOfLines (a ++ l2 :: b))) =
      readInputFile (some (fileOfLines (a ++ l1 :: b))) := by
  have key : readStep (loaderAfter (fileOfLines a)) (l2 ++ ['\n']) =
      readStep (loaderAfter (fileOfLines a)) (l1 ++ ['\n']) := by
    have e1 : cString (l1 ++ ['\n']) = lineAsRead l1 := rfl
    have e2 : cString (l2 ++ ['\n']) = lineAsRead l2 := rfl
    simp only [readStep, e1, e2, hv1, hv2, if_true]
    exact processLine_surplus _ _ _ n1 n2 vals extra hs ht1 ht2 hm
  simp only [readInputFile]
  rw [fgetsLines_insert_fit a b l2 h2, fgetsLines_insert_fit a b l1 h1, List.foldl_append,
    List.foldl_append, List.foldl_cons, List.foldl_cons]
  have e : (fgetsLines (fileOfLines a) []).foldl readStep startLoader =
      loaderAfter (fileOfLines a) := rfl
  rw [e, key]

/-- Where every line of the file fits the line buffer, a maximum section with too few
rows is rejected: when the lines that are not skipped are a valid header `n m`, one
further line, `n` lines for the allocation section and then fewer than `n` complete
rows, `readInputFile` returns false and `main` exits with status 1. -/
theorem missing_max_rows_rejected_when_lines_fit (lines : List (List Char)) (h t : List Char)
    (alloc mx : List (List Char)) (n m : Int) (buf : Nat → Int)
    (hfit : ∀ l, l ∈ lines → lineFits l)
    (hlive : lines.filter (fun l => isValidLine (lineAsRead l)) = h :: t :: (alloc ++ mx))
    (hh : sscanfHeader (lineAsRead h) = (some n, some m))
    (halloc : (alloc.length : Int) = n)
    (hmx : ((mx.countP (fun l => decide (completeRow m (lineAsRead l))) : Nat) : Int) < n) :
    readInputFile (some (fileOfLines lines)) = none ∧
      runProgram (some (fileOfLines lines)) buf =
        { exitStatus := 1, report := Report.readFailure } := by
  have hnone : readInputFile (some (fileOfLines lines)) = none := by
    apply load_requires_rows_fit lines h t (alloc ++ mx) n m hfit hlive hh
    rw [List.countP_append]
    have := List.countP_le_length (fun l => decide (completeRow m (lineAsRead l))) (l := alloc)
    push_cast
    omega
  exact ⟨hnone, runProgram_none _ buf hnone⟩

theorem missing_max_rows_rejected_when_lines_fit_witness :
    readInputFile (some (fileOfLines missingMaxRowInput)) = none ∧
      runProgram (some (fileOfLines missingMaxRowInput)) (fun _ => 0) =
        { exitStatus := 1, report := Report.readFailure } :=
  missing_max_rows_rejected_when_lines_fit missingMaxRowInput "2 1".toList "5".toList
    ["P0 1".toList, "P1 1".toList] ["P0 2".toList] 2 1 (fun _ => 0)
    (by decide) (by decide) (by decide) (by decide) (by decide)

set_option maxRecDepth 100000 in
/-- C13 is broken by the code: the file `hiddenMaxRowInput` has the header
`1 1`, the total line `5`, the allocation row `P0 2`, no maximum row, and one comment line
of 259 characters.  `fgets` returns the comment in two pieces, the second piece `P0 5` is
read as the maximum row, so `readInputFile` returns true and the program prints the
verdict SAFE with the sequence `<P0>` and exits with status 0. -/
theorem comment_tail_read_as_max_row (buf : Nat → Int) :
    longCommentRow.head? = some '#' ∧
      longCommentRow.length = 259 ∧
      hiddenMaxRowInput.filter (fun l => isValidLine (lineAsRead l)) =
        ["1 1".toList, "5".toList, "P0 2".toList] ∧
      sscanfHeader (lineAsRead "1 1".toList) = (some 1, some 1) ∧
      completeRow 1 (lineAsRead "P0 2".toList) ∧
      fgetsLines (longCommentRow ++ ['\n']) [] =
        ['#' :: List.replicate 254 'x', "P0 5\n".toList] ∧
      (readInputFile (some (fileOfLines hiddenMaxRowInput))).isSome = true ∧
      runProgram (some (fileOfLines hiddenMaxRowInput)) buf =
        { exitStatus := 0, report := Report.safeState [0] } := by
  refine ⟨by decide, by decide, by decide, by decide, by decide, by decide, by decide, ?_⟩
  rw [runProgram, readInputFile_loaded _ (by decide), main_eval]
  decide

/-- C14 fails as stated: a row with a surplus value (`P0 2 9` for one resource) and a
row with too few values followed by a spare complete row (`P0`, then `P0 2`) are both
accepted; `readInputFile` returns true and the program prints a verdict. -/
theorem wrong_field_count_accepted :
    valueCount "P0 2 9".toList = 2 ∧
      (readInputFile (some (fileOfLines surplusValueInput))).isSome = true ∧
      (runProgram (some (fileOfLines surplusValueInput)) (fun _ => 0)).exitStatus = 0 ∧
      valueCount "P0".toList = 0 ∧
      (readInputFile (some (fileOfLines shortRowInput))).isSome = true ∧
      (runProgram (some (fileOfLines shortRowInput)) (fun _ => 0)).exitStatus = 0 := by
  have e1 : ∃ s, readInputFile (some (fileOfLines surplusValueInput)) = some s := by
    rw [← Option.isSome_iff_exists]
    decide
  have e2 : ∃ s, readInputFile (some (fileOfLines shortRowInput)) = some s := by
    rw [← Option.isSome_iff_exists]
    decide
  obtain ⟨s1, h1⟩ := e1
  obtain ⟨s2, h2⟩ := e2
  refine ⟨by decide, by decide, ?_, by decide, by decide, ?_⟩
  · rw [runProgram, h1, main_eval]
    split <;> rfl
  · rw [runProgram, h2, main_eval]
    split <;> rfl

/-- C14, as the code behaves, for files whose lines each fit the line buffer (at most
254 characters, so that `fgets` reads the line and its newline in one call).  When the
lines that are not skipped are a valid header `n m`, one further line and exactly
`2 * n` row lines, a row line with fewer than `m` values makes `readInputFile` return
false and the program exit with status 1.  A row with more than `m` values is accepted:
replacing a line that is read as an allocation or maximum row with exactly `m` values by
a line with the same values followed by further tokens leaves the result of
`readInputFile` unchanged. -/
theorem short_row_rejected (lines : List (List Char)) (h t : List Char)
    (rows : List (List Char)) (n m : Int) (buf : Nat → Int)
    (hfit : ∀ l, l ∈ lines → lineFits l)
    (hlive : lines.filter (fun l => isValidLine (lineAsRead l)) = h :: t :: rows)
    (hh : sscanfHeader (lineAsRead h) = (some n, some m))
    (hlen : (rows.length : Int) = 2 * n)
    (hshort : ∃ row, row ∈ rows ∧ (valueCount (lineAsRead row) : Int) < m) :
    (readInputFile (some (fileOfLines lines)) = none ∧
      runProgram (some (fileOfLines lines)) buf =
        { exitStatus := 1, report := Report.readFailure }) ∧
    (∀ (a b : List (List Char)) (l1 l2 n1 n2 : List Char) (vals extra : List (List Char)),
      lineFits l1 → lineFits l2 →
      isValidLine (lineAsRead l1) = true → isValidLine (lineAsRead l2) = true →
      strtokAll (lineAsRead l1) [] = n1 :: vals →
      strtokAll (lineAsRead l2) [] = n2 :: (vals ++ extra) →
      ((loaderAfter (fileOfLines a)).sectionNo = 2 ∨
        (loaderAfter (fileOfLines a)).sectionNo = 3) →
      (vals.length : Int) = (loaderAfter (fileOfLines a)).num_resources →
      readInputFile (some (fileOfLines (a ++ l2 :: b))) =
        readInputFile (some (fileOfLines (a ++ l1 :: b)))) := by
  have hnone : readInputFile (some (fileOfLines lines)) = none := by
    apply load_requires_rows_fit lines h t rows n m hfit hlive hh
    obtain ⟨row, hrow, hlt⟩ := hshort
    have hle := List.countP_le_length (fun l => decide (completeRow m (lineAsRead l)))
      (l := rows)
    have hne : rows.countP (fun l => decide (completeRow m (lineAsRead l))) ≠
        rows.length := by
      intro heq
      have := (List.countP_eq_length.1 heq) row hrow
      simp only [decide_eq_true_eq] at this
      have := this.2.2
      omega
    omega
  exact ⟨⟨hnone, runProgram_none _ buf hnone⟩, readInputFile_replace_row⟩

theorem short_row_rejected_witness :
    (readInputFile (some (fileOfLines shortRowNoSpareInput)) = none ∧
      runProgram (some (fileOfLines shortRowNoSpareInput)) (fun _ => 0) =
        { exitStatus := 1, report := Report.readFailure }) ∧
    readInputFile (some (fileOfLines
        (["1 1".toList, "5".toList] ++ "P0 2 9".toList :: ["P0 5".toList]))) =
      readInputFile (some (fileOfLines
        (["1 1".toList, "5".toList] ++ "P0 2".toList :: ["P0 5".toList]))) :=
  have h := short_row_rejected shortRowNoSpareInput "1 2".toList "5 5".toList
    ["P0 2".toList, "P0 5 5".toList] 1 2 (fun _ => 0)
    (by decide) (by decide) (by decide) (by decide) ⟨"P0 2".toList, by decide, by decide⟩
  ⟨h.1, h.2 ["1 1".toList, "5".toList] ["P0 5".toList] "P0 2".toList "P0 2 9".toList
    "P0".toList "P0".toList ["2".toList] ["9".toList]
    (by decide) (by decide) (by decide) (by decide) (by decide) (by decide)
    (by decide) (by decide)⟩

/-! ## Lines the loader passes over -/

theorem fgetsLines_mem (c : List Char) :
    ∀ (cur piece : List Char), piece ∈ fgetsLines c cur →
      ∀ x, x ∈ piece → x ∈ c ∨ x ∈ cur := by
  induction c with
  | nil =>
    intro cur piece hp x hx
    simp only [fgetsLines] at hp
    split at hp
    · simp at hp
    · simp only [List.mem_singleton] at hp
      subst hp
      exact Or.inr (List.mem_reverse.1 hx)
  | cons y ys ih =>
    intro cur piece hp x hx
    rw [fgetsLines] at hp
    split at hp
    · rcases List.mem_cons.1 hp with h | h
      · subst h
        rcases List.mem_cons.1 (List.mem_reverse.1 hx) with h2 | h2
        · exact Or.inl (by rw [h2]; exact List.mem_cons_self _ _)
        · exact Or.inr h2
      · rcases ih [] piece h x hx with h2 | h2
        · exact Or.inl (List.mem_cons_of_mem _ h2)
        · simp at h2
    · rcases ih (y :: cur) piece hp x hx with h2 | h2
      · exact Or.inl (List.mem_cons_of_mem _ h2)
      · rcases List.mem_cons.1 h2 with h3 | h3
        · exact Or.inl (by rw [h3]; exact List.mem_cons_self _ _)
        · exact Or.inr h3

theorem strtokAll_blank (p : List Char) (hp : ∀ x, x ∈ p → isDelimiter x = true) :
    strtokAll p [] = [] := by
  induction p with
  | nil => rfl
  | cons c cs ih =>
    rw [strtokAll, if_pos (hp c (List.mem_cons_self c cs))]
    simp only [List.isEmpty_nil, if_true]
    exact ih (fun x hx => hp x (List.mem_cons_of_mem c hx))

theorem scanInt_blank (p : List Char) (hp : ∀ x, x ∈ p → isspace x = true) :
    scanInt p = none := by
  have h : p.dropWhile isspace = [] := List.dropWhile_eq_nil_iff.2 hp
  simp [scanInt, h, readSign]

theorem readStep_blank (ld : Loader) (p : List Char)
    (hp : ∀ x, x ∈ p → x = ' ' ∨ x = '\t' ∨ x = '\n')
    (hld : ¬ (ld.sectionNo = 1 ∧ ld.num_resources = 0)) :
    readStep ld p = ld := by
  have hc : cString p = p := by
    apply List.takeWhile_eq_self_iff.2
    intro x hx
    rcases hp x hx with h | h | h <;> subst h <;> decide
  have htok : strtokAll p [] = [] := by
    apply strtokAll_blank
    intro x hx
    rcases hp x hx with h | h | h <;> subst h <;> decide
  have hscan : scanInt p = none := by
    apply scanInt_blank
    intro x hx
    rcases hp x hx with h | h | h <;> subst h <;> decide
  simp only [readStep, hc]
  split
  · have h10 : ¬ (1 : Nat) = 0 := by decide
    have h20 : ¬ (2 : Nat) = 0 := by decide
    have h21 : ¬ (2 : Nat) = 1 := by decide
    have h30 : ¬ (3 : Nat) = 0 := by decide
    have h31 : ¬ (3 : Nat) = 1 := by decide
    have h32 : ¬ (3 : Nat) = 2 := by decide
    by_cases h0 : ld.sectionNo = 0
    · simp only [processLine, h0, if_true, sscanfHeader, hscan]
    by_cases h1 : ld.sectionNo = 1
    · have hm : ¬ (((0 : Nat) : Int) = ld.num_resources) := by
        intro h
        exact hld ⟨h1, by omega⟩
      simp only [processLine, h1, h10, if_false, if_true, htok, readValues, hm]
      cases ld
      simp only at h1
      subst h1
      rfl
    by_cases h2 : ld.sectionNo = 2
    · simp only [processLine, h2, h20, h21, if_false, if_true, htok]
    by_cases h3 : ld.sectionNo = 3
    · simp only [processLine, h3, h30, h31, h32, if_false, if_true, htok]
    · simp only [processLine, h0, h1, h2, h3, if_false]
  · rfl

theorem foldl_readStep_fixed (pieces : List (List Char)) (ld : Loader)
    (h : ∀ p, p ∈ pieces → readStep ld p = ld) : pieces.foldl readStep ld = ld := by
  induction pieces with
  | nil => rfl
  | cons p ps ih =>
    rw [List.foldl_cons, h p (List.mem_cons_self p ps)]
    exact ih (fun q hq => h q (List.mem_cons_of_mem p hq))

theorem readInputFile_insert_pieces (a b : List (List Char)) (c : List Char)
    (h : (fgetsLines (c ++ ['\n']) []).foldl readStep (loaderAfter (fileOfLines a)) =
      loaderAfter (fileOfLines a)) :
    readInputFile (some (fileOfLines (a ++ c :: b))) =
      readInputFile (some (fileOfLines (a ++ b))) := by
  have hsplit : fgetsLines (fileOfLines (a ++ c :: b)) [] =
      fgetsLines (fileOfLines a) [] ++
        (fgetsLines (c ++ ['\n']) [] ++ fgetsLines (fileOfLines b) []) := by
    rw [fgetsLines_fileOfLines_append, fileOfLines, fgetsLines_append_newline]
  have e : (fgetsLines (fileOfLines a) []).foldl readStep startLoader =
      loaderAfter (fileOfLines a) := rfl
  simp only [readInputFile]
  rw [hsplit, fgetsLines_fileOfLines_append, List.foldl_append, List.foldl_append,
    List.foldl_append, e, h]

set_option maxRecDepth 100000 in
/-- C15 fails as stated, for blank lines and for comment lines.  A line holding one
space, inserted after the header `1 0` of an input that has no total line, is taken as
the total line and turns a failed load into a successful one.  A line holding a carriage
return, inserted before the total line `5`, is taken as the total line (`total = [0]`),
and the verdict changes from SAFE to UNSAFE.  A comment line of 258 characters, inserted
before the first line, is read by `fgets` in two pieces, the second piece `2 1` is taken
as the header, and the load fails where it succeeded. -/
theorem blank_or_long_comment_not_ignored :
    ((readInputFile (some (fileOfLines zeroResourceInput))).isSome = false ∧
      (readInputFile (some (fileOfLines
        (zeroResourceInput.take 1 ++ " ".toList :: zeroResourceInput.drop 1)))).isSome
          = true) ∧
    (runProgram (some (fileOfLines smallInput)) (fun _ => 0) =
        { exitStatus := 0, report := Report.safeState [0] } ∧
      runProgram (some (fileOfLines
          (smallInput.take 1 ++ "\r".toList :: smallInput.drop 1))) (fun _ => 0) =
        { exitStatus := 0, report := Report.notSafeState }) ∧
    (longComment.head? = some '#' ∧
      (readInputFile (some (fileOfLines smallInput))).isSome = true ∧
      (readInputFile (some (fileOfLines (longComment :: smallInput)))).isSome = false) := by
  refine ⟨⟨by decide, by decide⟩, ⟨?_, ?_⟩, ⟨by decide, by decide, by decide⟩⟩
  · rw [runProgram, readInputFile_loaded _ (by decide), main_eval]
    decide
  · rw [runProgram, readInputFile_loaded _ (by decide), main_eval]
    decide

/-- C15, as the code behaves: inserting at any position `k` one of the following lines
leaves the result of `readInputFile` unchanged, the same success or failure and the same
globals: an empty line; a line beginning with `#` that has at most 255 characters
(`MAX_LINE - 1`, what one call of `fgets` reads); a line of spaces and tabs only, of any
length, unless the loader at that position expects the total line and `num_resources` is
0, where such a line is taken as the total line. -/
theorem comment_lines_ignored (lines : List (List Char)) (k : Nat) (c : List Char)
    (hnl : '\n' ∉ c)
    (hc : c = [] ∨ (c.head? = some '#' ∧ c.length ≤ 255) ∨
      ((∀ x, x ∈ c → x = ' ' ∨ x = '\t') ∧
        ¬ ((loaderAfter (fileOfLines (lines.take k))).sectionNo = 1 ∧
          (loaderAfter (fileOfLines (lines.take k))).num_resources = 0))) :
    readInputFile (some (fileOfLines (lines.take k ++ c :: lines.drop k))) =
      readInputFile (some (fileOfLines lines)) := by
  have hgoal : readInputFile (some (fileOfLines (lines.take k ++ c :: lines.drop k))) =
      readInputFile (some (fileOfLines (lines.take k ++ lines.drop k))) := by
    apply readInputFile_insert_pieces
    rcases hc with h | ⟨h1, h2⟩ | ⟨h1, h2⟩
    · exact comment_chunks_skipped c (Or.inl h) hnl (by rw [h]; simp [MAX_LINE]) _
    · exact comment_chunks_skipped c (Or.inr h1) hnl (by simp only [MAX_LINE]; omega) _
    · apply foldl_readStep_fixed
      intro p hp
      apply readStep_blank _ p _ h2
      intro x hx
      rcases fgetsLines_mem _ [] p hp x hx with h3 | h3
      · rcases List.mem_append.1 h3 with h4 | h4
        · rcases h1 x h4 with h5 | h5
          · exact Or.inl h5
          · exact Or.inr (Or.inl h5)
        · exact Or.inr (Or.inr (List.mem_singleton.1 h4))
      · simp at h3
  rw [hgoal, List.take_append_drop]

theorem comment_lines_ignored_witness :
    readInputFile (some (fileOfLines
        (smallInput.take 2 ++ " \t ".toList :: smallInput.drop 2))) =
      readInputFile (some (fileOfLines smallInput)) :=
  comment_lines_ignored smallInput 2 " \t ".toList (by decide)
    (Or.inr (Or.inr ⟨by decide, by decide⟩))

end Banker
